import Mathlib

/-!
# consul_keys: reconciliation of a key set against the Consul KV store

A shallow embedding of `consul/resource_consul_keys.go`.

* A Go `interface{}` is a `Value`; a key block `map[string]interface{}` is a `Sub`, the
  map restricted to the six keys the schema declares and the code reads, an absent key
  being `none`.
* A `*schema.Set` is the list that `List()` returns, and the hash code of its items (the
  set function of the schema) is a parameter `hash`, which need not tell all items apart.
  `Difference` compares items by their code and keeps the order of the list, since
  `List()` orders the items of every set by the same hash code.
* Every call that leaves the process (agent `Self`, key client `Get`, `Put`, `Delete`) is
  appended to a log. What the agent or the store answers is an arbitrary function of the
  calls logged before and of the arguments, which covers every store content and every
  failure pattern.
* A failed single-value type assertion `x.(T)` is the result `Err.panic`.
-/

namespace Consul

/-- A dynamically typed Go value (`interface{}`); `other` is any value that is neither a
string, a bool nor an int (`nil` included). -/
inductive Value where
  | str (s : String)
  | bool (b : Bool)
  | int (n : Int)
  | other
  deriving DecidableEq, Repr

/-- One block of the `key` set, `map[string]interface{}`: `none` is an absent key. -/
structure Sub where
  name : Option Value
  path : Option Value
  value : Option Value
  flags : Option Value
  default : Option Value
  delete : Option Value
  deriving DecidableEq, Repr

/-- An item of `schema.Set.List()`, before `parseKey` asserts that it is a map. -/
inductive Raw where
  | map (sub : Sub)
  | other
  deriving DecidableEq, Repr

/-- A call that leaves the process. -/
inductive Call where
  | Self
  | Get (path : String)
  | Put (path : String) (value : String) (flags : Int)
  | Delete (path : String)
  deriving DecidableEq, Repr

/-- What a Go function gives back when it does not return nil: an `error` with its
message, or a run-time panic of a failed type assertion. -/
inductive Err where
  | error (msg : String)
  | panic
  deriving DecidableEq, Repr

/-- The key client of `newKeyClient(kv, dc, token)` (key_client.go), taken as a parameter:
each operation answers from the calls logged so far and its arguments. `Get` gives the
value and the flags, or an error message; `Put` and `Delete` give `none` for a nil
error. -/
structure KeyClient where
  Get : List Call → String → Except String (String × Int)
  Put : List Call → String → String → Int → Option String
  Delete : List Call → String → Option String

/-- The `*consulapi.Client`: `Self` is `client.Agent().Self()` reduced to
`info["Config"]["Datacenter"]`, and `KV` gives the key client for a datacenter and a
token. -/
structure Client where
  Self : List Call → Except String Value
  KV : String → String → KeyClient

/-- The provider configuration behind `meta`. -/
structure Config where
  Datacenter : String
  client : Client

/-- The `*schema.ResourceData` of a `consul_keys` resource: `oldKey` and `key` are the two
sides of `d.GetChange("key")`, `key` is also `d.Get("key")`. A string attribute that is
not set is the empty string. -/
structure ResourceData where
  id : String
  datacenter : String
  token : String
  oldKey : List Raw
  key : List Raw
  var : List (String × String)
  deriving DecidableEq, Repr

/-- The accessor `getClient(meta)` (config.go): the client that the provider configuration
holds. -/
def getClient (meta : Config) : Client := meta.client

/-- The constructor `newKeyClient(kv, dc, token)` (key_client.go): the key client of the
KV store of `client`, bound to a datacenter and a token. -/
def newKeyClient (client : Client) (dc token : String) : KeyClient := client.KV dc token

/-- Go `strings.HasSuffix`. -/
def HasSuffix (s suffix : String) : Bool := suffix.toList.isSuffixOf s.toList

/-- Go `strconv.FormatBool`. -/
def FormatBool (b : Bool) : String := if b then "true" else "false"

/-- The method `(*schema.Set).Difference`, on the lists of `List()`: the items of `s` whose
hash code is the code of no item of `other`. -/
def Difference {H : Type} [DecidableEq H] (hash : Raw → H) (s other : List Raw) : List Raw :=
  s.filter (fun x => decide (hash x ∉ other.map hash))

/-- The hash code that tells all items apart: the item itself. -/
def wholeRecord (raw : Raw) : Raw := raw

/-- A hash code under which the item `x` has the code of the item `y`, and every other item
its own. -/
def collide (x y : Raw) (raw : Raw) : Raw := if raw = x then y else raw

/-- The method `(*schema.Set).Equal`, deep equality of the two maps from code to item: for
the lists of two sets, the same items. -/
def Equal (s other : List Raw) : Bool :=
  s.all (fun x => decide (x ∈ other)) && other.all (fun x => decide (x ∈ s))

/-- The check `d.HasChange("key")`. -/
def HasChange (d : ResourceData) : Bool := !(Equal d.oldKey d.key)

/-- Assignment `m[k] = v` on a `map[string]string`, kept as an association list with one
pair for each key. -/
def mapSet (m : List (String × String)) (k v : String) : List (String × String) :=
  (k, v) :: m.filter (fun kv => decide (kv.1 ≠ k))

/-- Lookup `m[k]` with the comma-ok form. -/
def mapGet (m : List (String × String)) (k : String) : Option String :=
  match m with
  | [] => none
  | (k', v) :: rest => if k' = k then some v else mapGet rest k

/-- parseKey is used to parse a key into a name, path, config or error. -/
def parseKey (raw : Raw) : Except Err (String × String × Sub) :=
  match raw with
  | Raw.other => Except.error (Err.error "Failed to unroll")
  | Raw.map sub =>
    match sub.name with
    | some (Value.str key) =>
      match sub.path with
      | some (Value.str path) => Except.ok (key, path, sub)
      | _ => Except.error (Err.error ("Failed to get path for key \x27" ++ key ++ "\x27"))
    | _ => Except.error Err.panic

/-- attributeValue determines the value for a key, potentially using a default value if
provided. -/
def attributeValue (sub : Sub) (readValue : String) : String :=
  if readValue ≠ "" then readValue
  else
    match sub.default with
    | some (Value.str dflt) => dflt
    | some (Value.bool dflt) => FormatBool dflt
    | _ => ""

/-- getDC is used to get the datacenter of the local agent. -/
def getDC (d : ResourceData) (client : Client) (meta : Config) (log : List Call) :
    Except Err String × List Call :=
  if d.datacenter ≠ "" then (Except.ok d.datacenter, log)
  else
    match client.Self log with
    | Except.error err =>
      if meta.Datacenter ≠ "" then (Except.ok meta.Datacenter, log ++ [Call.Self])
      else if HasSuffix err "403 (Permission denied)" then (Except.ok "", log ++ [Call.Self])
      else (Except.error (Err.error ("Failed to get datacenter from Consul agent: " ++ err)),
        log ++ [Call.Self])
    | Except.ok (Value.str dc) => (Except.ok dc, log ++ [Call.Self])
    | Except.ok _ => (Except.error Err.panic, log ++ [Call.Self])

/-- The write loop of `resourceConsulKeysUpdate` over `add`: the error if any, the paths
recorded in `addedPaths`, and the log. -/
def addLoop (keyClient : KeyClient) :
    List Raw → List String → List Call → Option Err × List String × List Call
  | [], addedPaths, log => (none, addedPaths, log)
  | raw :: rest, addedPaths, log =>
    match parseKey raw with
    | Except.error err => (some err, addedPaths, log)
    | Except.ok (_, path, sub) =>
      match sub.value with
      | some (Value.str value) =>
        if value = "" then addLoop keyClient rest addedPaths log
        else
          match sub.flags with
          | some (Value.int flags) =>
            match keyClient.Put log path value flags with
            | some err => (some (Err.error err), addedPaths, log ++ [Call.Put path value flags])
            | none => addLoop keyClient rest (path :: addedPaths) (log ++ [Call.Put path value flags])
          | _ => (some Err.panic, addedPaths, log)
      | _ => (some Err.panic, addedPaths, log)

/-- The delete loop of `resourceConsulKeysUpdate` over `remove`; with no added path it is
the loop of `resourceConsulKeysDelete`. -/
def removeLoop (keyClient : KeyClient) :
    List Raw → List String → List Call → Option Err × List Call
  | [], _, log => (none, log)
  | raw :: rest, addedPaths, log =>
    match parseKey raw with
    | Except.error err => (some err, log)
    | Except.ok (_, path, sub) =>
      if path ∈ addedPaths then removeLoop keyClient rest addedPaths log
      else
        match sub.delete with
        | some (Value.bool true) =>
          match keyClient.Delete log path with
          | some err => (some (Err.error err), log ++ [Call.Delete path])
          | none => removeLoop keyClient rest addedPaths (log ++ [Call.Delete path])
        | _ => removeLoop keyClient rest addedPaths log

/-- The loop of `resourceConsulKeysRead` over `keys`: the blocks as the loop leaves them
and the `vars` map, or the error, and the log. -/
def readLoop (keyClient : KeyClient) :
    List Raw → List (String × String) → List Call →
      Except Err (List Raw × List (String × String)) × List Call
  | [], vars, log => (Except.ok ([], vars), log)
  | raw :: rest, vars, log =>
    match parseKey raw with
    | Except.error err => (Except.error err, log)
    | Except.ok (key, path, sub) =>
      match keyClient.Get log path with
      | Except.error err => (Except.error (Err.error err), log ++ [Call.Get path])
      | Except.ok (value, flags) =>
        let sub₁ : Sub := { sub with flags := some (Value.int flags) }
        let value₁ := attributeValue sub₁ value
        let vars₁ := if key ≠ "" then mapSet vars key value₁ else vars
        let sub₂ : Sub :=
          if sub₁.value ≠ some (Value.str "") then { sub₁ with value := some (Value.str value₁) }
          else sub₁
        match readLoop keyClient rest vars₁ (log ++ [Call.Get path]) with
        | (Except.error err, log₁) => (Except.error err, log₁)
        | (Except.ok (keys, vars₂), log₁) => (Except.ok (Raw.map sub₂ :: keys, vars₂), log₁)

/-- The function `resourceConsulKeysRead`: the returned error (`none` for nil), the
resource data and the log. `d.Set` of these attributes does not fail. -/
def resourceConsulKeysRead (d : ResourceData) (meta : Config) (log : List Call) :
    Option Err × ResourceData × List Call :=
  let client := getClient meta
  let token := d.token
  match getDC d client meta log with
  | (Except.error err, log₁) => (some err, d, log₁)
  | (Except.ok dc, log₁) =>
    let keyClient := newKeyClient client dc token
    match readLoop keyClient d.key [] log₁ with
    | (Except.error err, log₂) => (some err, d, log₂)
    | (Except.ok (keys, vars), log₂) =>
      (none, { d with var := vars, key := keys, datacenter := dc }, log₂)

/-- The body of `if d.HasChange("key")` in `resourceConsulKeysUpdate`. -/
def applyChange {H : Type} [DecidableEq H] (hash : Raw → H) (keyClient : KeyClient)
    (d : ResourceData) (log : List Call) : Option Err × List Call :=
  let remove := Difference hash d.oldKey d.key
  let add := Difference hash d.key d.oldKey
  match addLoop keyClient add [] log with
  | (some err, _, log₁) => (some err, log₁)
  | (none, addedPaths, log₁) => removeLoop keyClient remove addedPaths log₁

/-- The function `resourceConsulKeysUpdate`. -/
def resourceConsulKeysUpdate {H : Type} [DecidableEq H] (hash : Raw → H) (d : ResourceData)
    (meta : Config) (log : List Call) : Option Err × ResourceData × List Call :=
  let client := getClient meta
  let token := d.token
  match getDC d client meta log with
  | (Except.error err, log₁) => (some err, d, log₁)
  | (Except.ok dc, log₁) =>
    let keyClient := newKeyClient client dc token
    match (if HasChange d then applyChange hash keyClient d log₁ else (none, log₁)) with
    | (some err, log₂) => (some err, d, log₂)
    | (none, log₂) => resourceConsulKeysRead { d with datacenter := dc } meta log₂

/-- The loop of `resourceConsulKeysDelete` over the tracked keys. -/
def deleteLoop (keyClient : KeyClient) : List Raw → List Call → Option Err × List Call
  | [], log => (none, log)
  | raw :: rest, log =>
    match parseKey raw with
    | Except.error err => (some err, log)
    | Except.ok (_, path, sub) =>
      match sub.delete with
      | some (Value.bool true) =>
        match keyClient.Delete log path with
        | some err => (some (Err.error err), log ++ [Call.Delete path])
        | none => deleteLoop keyClient rest (log ++ [Call.Delete path])
      | _ => deleteLoop keyClient rest log

/-- The function `resourceConsulKeysDelete`. -/
def resourceConsulKeysDelete (d : ResourceData) (meta : Config) (log : List Call) :
    Option Err × ResourceData × List Call :=
  let client := getClient meta
  let token := d.token
  match getDC d client meta log with
  | (Except.error err, log₁) => (some err, d, log₁)
  | (Except.ok dc, log₁) =>
    let keyClient := newKeyClient client dc token
    match deleteLoop keyClient d.key log₁ with
    | (some err, log₂) => (some err, d, log₂)
    | (none, log₂) => (none, { d with id := "" }, log₂)

/-- The write phase of `resourceConsulKeysUpdate`, run with the key client of datacenter
`dc` from the log `log`: `addLoop` over `toAdd = desired − previous`. -/
def writePhase {H : Type} [DecidableEq H] (hash : Raw → H) (d : ResourceData) (meta : Config)
    (dc : String) (log : List Call) : Option Err × List String × List Call :=
  addLoop (newKeyClient (getClient meta) dc d.token) (Difference hash d.key d.oldKey) [] log

/-- The delete phase of `resourceConsulKeysUpdate` after `writePhase`: `removeLoop` over
`toRemove = previous − desired` with the paths that the write phase recorded. -/
def deletePhase {H : Type} [DecidableEq H] (hash : Raw → H) (d : ResourceData) (meta : Config)
    (dc : String) (log : List Call) : Option Err × List Call :=
  removeLoop (newKeyClient (getClient meta) dc d.token) (Difference hash d.oldKey d.key)
    (writePhase hash d meta dc log).2.1 (writePhase hash d meta dc log).2.2

/-- The path of a key block whose `delete` flag is the boolean true: the path that the
delete loops pass to `Delete` for it. -/
def flaggedPath : Raw → Option String
  | Raw.map sub =>
    match sub.path, sub.delete with
    | some (Value.str p), some (Value.bool true) => some p
    | _, _ => none
  | Raw.other => none

/-- The paths of the key blocks whose `delete` flag is true, in the order of the set. -/
def flaggedPaths (keys : List Raw) : List String := keys.filterMap flaggedPath

/-- The path that a call deletes, when the call is a `Delete`. -/
def deleteTarget : Call → Option String
  | Call.Delete p => some p
  | _ => none

/-- The paths passed to `Delete` in a log, in the order of the calls. -/
def deleteTargets (log : List Call) : List String := log.filterMap deleteTarget

/-- The value resolution as the specification words it (ValueResolver.Resolve): the store
value when it is not empty; else a string default as it is, a boolean default as `"true"`
or `"false"`; else the empty string. -/
def resolveReference (sub : Sub) (storeValue : String) : String :=
  if storeValue ≠ "" then storeValue
  else
    match sub.default with
    | some (Value.str s) => s
    | some (Value.bool true) => "true"
    | some (Value.bool false) => "false"
    | _ => ""

/-- The key block that one iteration of the loop of `resourceConsulKeysRead` leaves when
`Get` answered `value` and `flags`: the flags are stored, and the value field takes the
effective value unless it was the empty string. -/
def readBack (sub : Sub) (value : String) (flags : Int) : Sub :=
  let sub₁ : Sub := { sub with flags := some (Value.int flags) }
  if sub₁.value ≠ some (Value.str "") then
    { sub₁ with value := some (Value.str (attributeValue sub₁ value)) }
  else sub₁

/-- Every `Put` and every `Delete` of the log got a nil error from the key client, each
asked after the calls that stand before it in the log. -/
def AllSucceeded (kc : KeyClient) (log : List Call) : Prop :=
  ∀ h c rest, log = h ++ c :: rest →
    (∀ p v f, c = Call.Put p v f → kc.Put h p v f = none) ∧
    (∀ p, c = Call.Delete p → kc.Delete h p = none)

/-- The run stopped at a failed store write: the last call of the log is a `Put` or a
`Delete` that the key client answered with the error `e`, every earlier one succeeded, and
the run returned that error. -/
def StoppedAtFailure (kc : KeyClient) (err : Option Err) (log : List Call) : Prop :=
  ∃ F c e, log = F ++ [c] ∧ AllSucceeded kc F ∧ err = some (Err.error e) ∧
    ((∃ p v f, c = Call.Put p v f ∧ kc.Put F p v f = some e) ∨
     (∃ p, c = Call.Delete p ∧ kc.Delete F p = some e))

/-- The key client `kc'` succeeds wherever `kc` does: each `Put`, `Delete` and `Get` that
`kc` answers without error gets the same answer from `kc'`. -/
def SucceedsWhere (kc kc' : KeyClient) : Prop :=
  (∀ h p v f, kc.Put h p v f = none → kc'.Put h p v f = none) ∧
  (∀ h p, kc.Delete h p = none → kc'.Delete h p = none) ∧
  (∀ h p r, kc.Get h p = Except.ok r → kc'.Get h p = Except.ok r)

/-! ## An in-memory store for the worked examples -/

/-- The content of an in-memory store that held `init` before the calls of the log. -/
def memStore (init : List (String × String × Int)) : List Call → List (String × String × Int)
  | [] => init
  | Call.Put p v f :: log => memStore ((p, v, f) :: init.filter (fun e => decide (e.1 ≠ p))) log
  | Call.Delete p :: log => memStore (init.filter (fun e => decide (e.1 ≠ p))) log
  | _ :: log => memStore init log

/-- A key client over `memStore` that never fails; a key that the store does not hold
reads as the empty value with flags 0. -/
def memClient (init : List (String × String × Int)) : KeyClient where
  Get := fun log p =>
    match (memStore init log).find? (fun e => decide (e.1 = p)) with
    | some e => Except.ok e.2
    | none => Except.ok ("", 0)
  Put := fun _ _ _ _ => none
  Delete := fun _ _ => none

/-- A provider configuration with no default datacenter, an agent in datacenter `dc1`
and the in-memory store. -/
def memConfig (init : List (String × String × Int)) : Config where
  Datacenter := ""
  client := { Self := fun _ => Except.ok (Value.str "dc1"), KV := fun _ _ => memClient init }

/-- A key block as the schema fills it: no name, flags 0, no default. -/
def entry (path value : String) (del : Bool) : Raw :=
  Raw.map { name := some (Value.str ""), path := some (Value.str path),
            value := some (Value.str value), flags := some (Value.int 0),
            default := none, delete := some (Value.bool del) }

/-- A key block with a name, the deprecated read form. -/
def named (name path value : String) : Raw :=
  Raw.map { name := some (Value.str name), path := some (Value.str path),
            value := some (Value.str value), flags := some (Value.int 0),
            default := none, delete := some (Value.bool false) }

/-- Resource data in datacenter `dc1` with the given previous and desired key sets. -/
def resource (previous desired : List Raw) : ResourceData :=
  { id := "consul", datacenter := "dc1", token := "", oldKey := previous, key := desired,
    var := [] }

/-- A key block that carries only a `default`. -/
def withDefault (dflt : Option Value) : Sub :=
  { name := none, path := none, value := none, flags := none, default := dflt, delete := none }

/-- Resource data with no datacenter of its own. -/
def noDatacenter : ResourceData :=
  { id := "consul", datacenter := "", token := "", oldKey := [], key := [], var := [] }

/-- A client whose agent answers every `Self` with the error `msg`. -/
def failingAgent (msg : String) : Client :=
  { Self := fun _ => Except.error msg, KV := fun _ _ => memClient [] }

/-- The in-memory configuration with a key client whose `Put` on the path `badPut` and
whose `Delete` on the path `badDelete` fail with the message `boom`, and that otherwise
answers as `memClient`. -/
def failingConfig (init : List (String × String × Int)) (badPut badDelete : String) :
    Config where
  Datacenter := ""
  client :=
    { Self := fun _ => Except.ok (Value.str "dc1")
      KV := fun _ _ =>
        { Get := (memClient init).Get
          Put := fun _ p _ _ => if p = badPut then some "boom" else none
          Delete := fun _ p => if p = badDelete then some "boom" else none } }

/-! ## Lemmas on the loops -/

theorem getDC_calls (d : ResourceData) (client : Client) (meta : Config) (log : List Call)
    (c : Call) (hc : c ∈ (getDC d client meta log).2) : c ∈ log ∨ c = Call.Self := by
  unfold getDC at hc
  split at hc
  · exact Or.inl hc
  · split at hc
    · split at hc
      · simpa using hc
      · split at hc <;> simpa using hc
    · simpa using hc
    · simpa using hc

theorem getDC_extends (d : ResourceData) (client : Client) (meta : Config) (log : List Call) :
    log <+: (getDC d client meta log).2 := by
  unfold getDC
  split
  · exact List.prefix_refl _
  · split
    · split
      · exact List.prefix_append _ _
      · split <;> exact List.prefix_append _ _
    · exact List.prefix_append _ _
    · exact List.prefix_append _ _

theorem addLoop_added_mono (kc : KeyClient) (l : List Raw) (a : List String) (log : List Call) :
    a ⊆ (addLoop kc l a log).2.1 := by
  induction l generalizing a log with
  | nil => simp [addLoop]
  | cons raw rest ih =>
    unfold addLoop
    split
    · simp
    · split
      · split
        · exact ih a log
        · split
          · split
            · simp
            · exact fun x hx => ih _ _ (List.mem_cons_of_mem _ hx)
          · simp
      · simp

theorem addLoop_extends (kc : KeyClient) (l : List Raw) (a : List String) (log : List Call) :
    log <+: (addLoop kc l a log).2.2 := by
  induction l generalizing a log with
  | nil => simp [addLoop]
  | cons raw rest ih =>
    unfold addLoop
    split
    · simp
    · split
      · split
        · exact ih a log
        · split
          · split
            · simp
            · exact (List.prefix_append _ _).trans (ih _ _)
          · simp
      · simp

theorem parseKey_ok (raw : Raw) (key path : String) (sub : Sub)
    (h : parseKey raw = Except.ok (key, path, sub)) :
    raw = Raw.map sub ∧ sub.name = some (Value.str key) ∧ sub.path = some (Value.str path) := by
  unfold parseKey at h
  split at h
  · simp at h
  · split at h
    · split at h
      · simp only [Except.ok.injEq, Prod.mk.injEq] at h
        obtain ⟨h1, h2, h3⟩ := h
        subst h1 h2 h3
        simp_all
      · simp at h
    · simp at h

theorem addLoop_calls (kc : KeyClient) (l : List Raw) (a : List String) (log : List Call)
    (c : Call) (hc : c ∈ (addLoop kc l a log).2.2) :
    c ∈ log ∨ ∃ p v f, c = Call.Put p v f ∧ ((addLoop kc l a log).1 = none →
      p ∈ (addLoop kc l a log).2.1) := by
  induction l generalizing a log with
  | nil => left; simpa [addLoop] using hc
  | cons raw rest ih =>
    revert hc
    unfold addLoop
    split
    · exact fun hc => Or.inl hc
    · rename_i key path sub₀ hparse
      split
      · rename_i value hvalue
        split
        · exact fun hc => ih a log hc
        · split
          · rename_i flags hflags
            split
            · intro hc
              simp only [List.mem_append, List.mem_singleton] at hc
              rcases hc with hc | hc
              · exact Or.inl hc
              · exact Or.inr ⟨path, value, flags, hc, by simp⟩
            · intro hc
              rcases ih _ _ hc with h | h
              · simp only [List.mem_append, List.mem_singleton] at h
                rcases h with h | h
                · exact Or.inl h
                · exact Or.inr ⟨path, value, flags, h,
                    fun _ => addLoop_added_mono kc rest _ _ (List.mem_cons_self _ _)⟩
              · exact Or.inr h
          · exact fun hc => Or.inl hc
      · exact fun hc => Or.inl hc

theorem addLoop_covers (kc : KeyClient) (l : List Raw) (a : List String) (log : List Call)
    (hok : (addLoop kc l a log).1 = none) (sub : Sub) (p : String) (hm : Raw.map sub ∈ l)
    (hp : sub.path = some (Value.str p)) (hv : sub.value ≠ some (Value.str "")) :
    p ∈ (addLoop kc l a log).2.1 := by
  induction l generalizing a log with
  | nil => simp at hm
  | cons raw rest ih =>
    revert hok
    unfold addLoop
    split
    · simp
    · rename_i key path sub₀ hparse
      obtain ⟨hraw, _, hpath⟩ := parseKey_ok raw key path sub₀ hparse
      split
      · rename_i value hvalue
        split
        · rename_i hempty
          intro hok
          rcases List.mem_cons.mp hm with h | h
          · rw [hraw] at h
            have : sub = sub₀ := by simpa using h
            subst this
            rw [hvalue, hempty] at hv
            exact absurd rfl hv
          · exact ih a log hok h
        · split
          · split
            · simp
            · intro hok
              rcases List.mem_cons.mp hm with h | h
              · rw [hraw] at h
                have : sub = sub₀ := by simpa using h
                subst this
                rw [hpath] at hp
                have : path = p := by simpa using hp
                subst this
                exact addLoop_added_mono kc rest _ _ (List.mem_cons_self _ _)
              · exact ih _ _ hok h
          · simp
      · simp

theorem removeLoop_extends (kc : KeyClient) (l : List Raw) (a : List String) (log : List Call) :
    log <+: (removeLoop kc l a log).2 := by
  induction l generalizing log with
  | nil => simp [removeLoop]
  | cons raw rest ih =>
    unfold removeLoop
    split
    · simp
    · split
      · exact ih log
      · split
        · split
          · simp
          · exact (List.prefix_append _ _).trans (ih _)
        · exact ih log

theorem removeLoop_calls (kc : KeyClient) (l : List Raw) (a : List String) (log : List Call)
    (c : Call) (hc : c ∈ (removeLoop kc l a log).2) :
    c ∈ log ∨ ∃ p, c = Call.Delete p ∧ p ∉ a ∧
      ∃ sub, Raw.map sub ∈ l ∧ sub.path = some (Value.str p) ∧
        sub.delete = some (Value.bool true) := by
  induction l generalizing log with
  | nil => left; simpa [removeLoop] using hc
  | cons raw rest ih =>
    have lift : ∀ {log₁ : List Call}, c ∈ (removeLoop kc rest a log₁).2 →
        c ∈ log₁ ∨ ∃ p, c = Call.Delete p ∧ p ∉ a ∧
          ∃ sub, Raw.map sub ∈ raw :: rest ∧ sub.path = some (Value.str p) ∧
            sub.delete = some (Value.bool true) := by
      intro log₁ h
      rcases ih log₁ h with h | ⟨p, h1, h2, sub, h3, h4⟩
      · exact Or.inl h
      · exact Or.inr ⟨p, h1, h2, sub, List.mem_cons_of_mem _ h3, h4⟩
    unfold removeLoop at hc
    split at hc
    · exact Or.inl hc
    · rename_i key path sub₀ hparse
      obtain ⟨hraw, _, hpath⟩ := parseKey_ok raw key path sub₀ hparse
      have here : ∀ {x : Call}, x = Call.Delete path → path ∉ a →
          sub₀.delete = some (Value.bool true) →
          ∃ p, x = Call.Delete p ∧ p ∉ a ∧
            ∃ sub, Raw.map sub ∈ raw :: rest ∧ sub.path = some (Value.str p) ∧
              sub.delete = some (Value.bool true) :=
        fun hx hna hd => ⟨path, hx, hna, sub₀, by simp [hraw], hpath, hd⟩
      split at hc
      · exact lift hc
      · rename_i hna
        split at hc
        · rename_i hdel
          split at hc
          · simp only [List.mem_append, List.mem_singleton] at hc
            rcases hc with hc | hc
            · exact Or.inl hc
            · exact Or.inr (here hc hna hdel)
          · rcases lift hc with h | h
            · simp only [List.mem_append, List.mem_singleton] at h
              rcases h with h | h
              · exact Or.inl h
              · exact Or.inr (here h hna hdel)
            · exact Or.inr h
        · exact lift hc

theorem readLoop_extends (kc : KeyClient) (l : List Raw) (vars : List (String × String))
    (log : List Call) : log <+: (readLoop kc l vars log).2 := by
  induction l generalizing vars log with
  | nil => simp [readLoop]
  | cons raw rest ih =>
    unfold readLoop
    split
    · simp
    · split
      · simp
      · simp only []
        split
        · rename_i heq
          have h := congrArg Prod.snd heq
          simp only [] at h
          show log <+: _
          rw [← h]
          exact (List.prefix_append _ _).trans (ih _ _)
        · rename_i heq
          have h := congrArg Prod.snd heq
          simp only [] at h
          show log <+: _
          rw [← h]
          exact (List.prefix_append _ _).trans (ih _ _)

theorem readLoop_calls (kc : KeyClient) (l : List Raw) (vars : List (String × String))
    (log : List Call) (c : Call) (hc : c ∈ (readLoop kc l vars log).2) :
    c ∈ log ∨ ∃ p, c = Call.Get p := by
  induction l generalizing vars log with
  | nil => left; simpa [readLoop] using hc
  | cons raw rest ih =>
    revert hc
    unfold readLoop
    split
    · exact fun hc => Or.inl hc
    · rename_i key path sub₀ hparse
      split
      · intro hc
        simp only [List.mem_append, List.mem_singleton] at hc
        exact hc.imp id (fun h => ⟨path, h⟩)
      · simp only []
        have step : ∀ vars₁, c ∈ (readLoop kc rest vars₁ (log ++ [Call.Get path])).2 →
            c ∈ log ∨ ∃ p, c = Call.Get p := by
          intro vars₁ hc
          rcases ih _ _ hc with h | h
          · simp only [List.mem_append, List.mem_singleton] at h
            exact h.imp id (fun h => ⟨path, h⟩)
          · exact Or.inr h
        split
        · rename_i heq
          have h := congrArg Prod.snd heq
          simp only [] at h
          intro hc
          exact step _ (by rw [h]; exact hc)
        · rename_i heq
          have h := congrArg Prod.snd heq
          simp only [] at h
          intro hc
          exact step _ (by rw [h]; exact hc)

theorem read_calls (d : ResourceData) (meta : Config) (log : List Call) (c : Call)
    (hc : c ∈ (resourceConsulKeysRead d meta log).2.2) :
    c ∈ log ∨ c = Call.Self ∨ ∃ p, c = Call.Get p := by
  revert hc
  unfold resourceConsulKeysRead
  simp only []
  split
  · rename_i err log₁ hdc
    intro hc
    have := getDC_calls d (getClient meta) meta log c (by rw [hdc]; exact hc)
    exact this.imp id Or.inl
  · rename_i dc log₁ hdc
    have key : ∀ x, x ∈ (readLoop (newKeyClient (getClient meta) dc d.token) d.key [] log₁).2 →
        x ∈ log ∨ x = Call.Self ∨ ∃ p, x = Call.Get p := by
      intro x hx
      rcases readLoop_calls _ _ _ _ x hx with h | h
      · have := getDC_calls d (getClient meta) meta log x (by rw [hdc]; exact h)
        exact this.imp id Or.inl
      · exact Or.inr (Or.inr h)
    split
    · rename_i heq
      intro hc
      exact key c (by rw [heq]; exact hc)
    · rename_i heq
      intro hc
      exact key c (by rw [heq]; exact hc)

theorem read_extends (d : ResourceData) (meta : Config) (log : List Call) :
    log <+: (resourceConsulKeysRead d meta log).2.2 := by
  unfold resourceConsulKeysRead
  simp only []
  split
  · rename_i err log₁ hdc
    have := getDC_extends d (getClient meta) meta log
    rw [hdc] at this
    exact this
  · rename_i dc log₁ hdc
    have h1 := getDC_extends d (getClient meta) meta log
    rw [hdc] at h1
    have h2 := readLoop_extends (newKeyClient (getClient meta) dc d.token) d.key [] log₁
    split
    · rename_i heq
      rw [heq] at h2
      exact h1.trans h2
    · rename_i heq
      rw [heq] at h2
      exact h1.trans h2

/-- The ways through `resourceConsulKeysUpdate`. -/
theorem update_cases {H : Type} [DecidableEq H] (hash : Raw → H)
    (d : ResourceData) (meta : Config) (log : List Call) :
    (∃ err log₁, getDC d (getClient meta) meta log = (Except.error err, log₁) ∧
      resourceConsulKeysUpdate hash d meta log = (some err, d, log₁)) ∨
    (∃ dc log₁, getDC d (getClient meta) meta log = (Except.ok dc, log₁) ∧
      ((HasChange d = false ∧ resourceConsulKeysUpdate hash d meta log =
          resourceConsulKeysRead { d with datacenter := dc } meta log₁) ∨
       (HasChange d = true ∧ ∃ err, (writePhase hash d meta dc log₁).1 = some err ∧
          resourceConsulKeysUpdate hash d meta log = (some err, d, (writePhase hash d meta dc log₁).2.2)) ∨
       (HasChange d = true ∧ (writePhase hash d meta dc log₁).1 = none ∧
          ∃ err, (deletePhase hash d meta dc log₁).1 = some err ∧
          resourceConsulKeysUpdate hash d meta log = (some err, d, (deletePhase hash d meta dc log₁).2)) ∨
       (HasChange d = true ∧ (writePhase hash d meta dc log₁).1 = none ∧
          (deletePhase hash d meta dc log₁).1 = none ∧
          resourceConsulKeysUpdate hash d meta log =
            resourceConsulKeysRead { d with datacenter := dc } meta
              (deletePhase hash d meta dc log₁).2))) := by
  unfold resourceConsulKeysUpdate
  simp only []
  rcases hdc : getDC d (getClient meta) meta log with ⟨err | dc, log₁⟩
  · exact Or.inl ⟨err, log₁, rfl, rfl⟩
  · refine Or.inr ⟨dc, log₁, rfl, ?_⟩
    cases hch : HasChange d
    · exact Or.inl ⟨rfl, by simp⟩
    · refine Or.inr ?_
      simp only [if_true, applyChange, deletePhase, writePhase]
      rcases hA : addLoop (newKeyClient (getClient meta) dc d.token)
        (Difference hash d.key d.oldKey) [] log₁ with ⟨_ | err, added, log₂⟩
      · refine Or.inr ?_
        simp only []
        rcases hR : removeLoop (newKeyClient (getClient meta) dc d.token)
          (Difference hash d.oldKey d.key) added log₂ with ⟨_ | err, log₃⟩
        · simp
        · simp
      · simp

theorem deleteLoop_calls (kc : KeyClient) (l : List Raw) (log : List Call)
    (c : Call) (hc : c ∈ (deleteLoop kc l log).2) :
    c ∈ log ∨ ∃ p, c = Call.Delete p ∧
      ∃ sub, Raw.map sub ∈ l ∧ sub.path = some (Value.str p) ∧
        sub.delete = some (Value.bool true) := by
  induction l generalizing log with
  | nil => left; simpa [deleteLoop] using hc
  | cons raw rest ih =>
    have lift : ∀ {log₁ : List Call}, c ∈ (deleteLoop kc rest log₁).2 →
        c ∈ log₁ ∨ ∃ p, c = Call.Delete p ∧
          ∃ sub, Raw.map sub ∈ raw :: rest ∧ sub.path = some (Value.str p) ∧
            sub.delete = some (Value.bool true) := by
      intro log₁ h
      rcases ih log₁ h with h | ⟨p, h1, sub, h3, h4⟩
      · exact Or.inl h
      · exact Or.inr ⟨p, h1, sub, List.mem_cons_of_mem _ h3, h4⟩
    unfold deleteLoop at hc
    split at hc
    · exact Or.inl hc
    · rename_i key path sub₀ hparse
      obtain ⟨hraw, _, hpath⟩ := parseKey_ok raw key path sub₀ hparse
      have here : ∀ {x : Call}, x = Call.Delete path →
          sub₀.delete = some (Value.bool true) →
          ∃ p, x = Call.Delete p ∧
            ∃ sub, Raw.map sub ∈ raw :: rest ∧ sub.path = some (Value.str p) ∧
              sub.delete = some (Value.bool true) :=
        fun hx hd => ⟨path, hx, sub₀, by simp [hraw], hpath, hd⟩
      split at hc
      · rename_i hdel
        split at hc
        · simp only [List.mem_append, List.mem_singleton] at hc
          rcases hc with hc | hc
          · exact Or.inl hc
          · exact Or.inr (here hc hdel)
        · rcases lift hc with h | h
          · simp only [List.mem_append, List.mem_singleton] at h
            rcases h with h | h
            · exact Or.inl h
            · exact Or.inr (here h hdel)
          · exact Or.inr h
      · exact lift hc

theorem deleteLoop_ok (kc : KeyClient) (l : List Raw) (log : List Call)
    (hok : (deleteLoop kc l log).1 = none) :
    (deleteLoop kc l log).2 = log ++ (flaggedPaths l).map Call.Delete := by
  induction l generalizing log with
  | nil => simp [deleteLoop, flaggedPaths]
  | cons raw rest ih =>
    revert hok
    unfold deleteLoop
    split
    · simp
    · rename_i key path sub₀ hparse
      obtain ⟨hraw, _, hpath⟩ := parseKey_ok raw key path sub₀ hparse
      split
      · rename_i hdel
        split
        · simp
        · intro hok
          rw [ih _ hok]
          simp [flaggedPaths, List.filterMap_cons, flaggedPath, hraw, hpath, hdel]
      · rename_i hdel
        intro hok
        rw [ih _ hok]
        have : flaggedPath raw = none := by
          rw [hraw]
          simp only [flaggedPath]
          split
          · rename_i h1 h2
            exact absurd h2 hdel
          · rfl
        simp [flaggedPaths, List.filterMap_cons, this]

theorem deleteLoop_total (kc : KeyClient) (l : List Raw) (log : List Call)
    (hwf : ∀ raw ∈ l, ∃ r, parseKey raw = Except.ok r)
    (hnf : ∀ h p, kc.Delete h p = none) : (deleteLoop kc l log).1 = none := by
  induction l generalizing log with
  | nil => simp [deleteLoop]
  | cons raw rest ih =>
    have ih' := fun log => ih log (fun r hr => hwf r (List.mem_cons_of_mem _ hr))
    obtain ⟨r, hr⟩ := hwf raw (List.mem_cons_self _ _)
    unfold deleteLoop
    split
    · simp_all
    · split
      · split
        · simp_all
        · exact ih' _
      · exact ih' _

theorem getDC_nil_calls (d : ResourceData) (meta : Config) (r : Except Err String)
    (log₁ : List Call) (hdc : getDC d (getClient meta) meta [] = (r, log₁)) (c : Call)
    (hc : c ∈ log₁) : c = Call.Self := by
  have := getDC_calls d (getClient meta) meta [] c (by rw [hdc]; exact hc)
  simpa using this

theorem writePhase_calls {H : Type} [DecidableEq H] (hash : Raw → H)
    (d : ResourceData) (meta : Config) (dc : String) (log₁ : List Call)
    (hlog : ∀ c ∈ log₁, c = Call.Self) (c : Call) (hc : c ∈ (writePhase hash d meta dc log₁).2.2) :
    c = Call.Self ∨ ∃ p v f, c = Call.Put p v f ∧
      ((writePhase hash d meta dc log₁).1 = none → p ∈ (writePhase hash d meta dc log₁).2.1) := by
  unfold writePhase at hc ⊢
  exact (addLoop_calls _ _ _ _ c hc).imp (hlog c) id

theorem deletePhase_calls {H : Type} [DecidableEq H] (hash : Raw → H)
    (d : ResourceData) (meta : Config) (dc : String) (log₁ : List Call)
    (hlog : ∀ c ∈ log₁, c = Call.Self) (c : Call) (hc : c ∈ (deletePhase hash d meta dc log₁).2) :
    c = Call.Self ∨
    (∃ p v f, c = Call.Put p v f ∧
      ((writePhase hash d meta dc log₁).1 = none → p ∈ (writePhase hash d meta dc log₁).2.1)) ∨
    ∃ p, c = Call.Delete p ∧ p ∉ (writePhase hash d meta dc log₁).2.1 ∧
      ∃ sub, Raw.map sub ∈ Difference hash d.oldKey d.key ∧ sub.path = some (Value.str p) ∧
        sub.delete = some (Value.bool true) := by
  unfold deletePhase at hc
  rcases removeLoop_calls _ _ _ _ c hc with h | h
  · exact (writePhase_calls hash d meta dc log₁ hlog c h).imp id Or.inl
  · exact Or.inr (Or.inr h)

theorem update_delete {H : Type} [DecidableEq H] (hash : Raw → H)
    (d : ResourceData) (meta : Config) (p : String)
    (h : Call.Delete p ∈ (resourceConsulKeysUpdate hash d meta []).2.2) :
    ∃ dc log₁, getDC d (getClient meta) meta [] = (Except.ok dc, log₁) ∧ HasChange d = true ∧
      (writePhase hash d meta dc log₁).1 = none ∧ p ∉ (writePhase hash d meta dc log₁).2.1 ∧
      ∃ sub, Raw.map sub ∈ Difference hash d.oldKey d.key ∧ sub.path = some (Value.str p) ∧
        sub.delete = some (Value.bool true) := by
  rcases update_cases hash d meta [] with ⟨err, log₁, hdc, hu⟩ | ⟨dc, log₁, hdc, hcase⟩
  · rw [hu] at h
    have := getDC_nil_calls d meta _ log₁ hdc _ h
    simp at this
  · have hlog := getDC_nil_calls d meta _ log₁ hdc
    rcases hcase with ⟨hch, hu⟩ | ⟨hch, err, hw, hu⟩ | ⟨hch, hw, err, hdl, hu⟩ | ⟨hch, hw, hdl, hu⟩
    · rw [hu] at h
      rcases read_calls _ _ _ _ h with h | h | ⟨q, h⟩
      · have := hlog _ h
        simp at this
      · simp at h
      · simp at h
    · rw [hu] at h
      rcases writePhase_calls hash d meta dc log₁ hlog _ h with h | ⟨_, _, _, h, _⟩ <;> simp at h
    · rw [hu] at h
      rcases deletePhase_calls hash d meta dc log₁ hlog _ h with h | ⟨_, _, _, h, _⟩ | ⟨q, hq, h1, h2⟩
      · simp at h
      · simp at h
      · simp only [Call.Delete.injEq] at hq
        subst hq
        exact ⟨dc, log₁, hdc, hch, hw, h1, h2⟩
    · rw [hu] at h
      rcases read_calls _ _ _ _ h with h | h | ⟨q, h⟩
      · rcases deletePhase_calls hash d meta dc log₁ hlog _ h with h | ⟨_, _, _, h, _⟩ | ⟨q, hq, h1, h2⟩
        · simp at h
        · simp at h
        · simp only [Call.Delete.injEq] at hq
          subst hq
          exact ⟨dc, log₁, hdc, hch, hw, h1, h2⟩
      · simp at h
      · simp at h

theorem update_put {H : Type} [DecidableEq H] (hash : Raw → H)
    (d : ResourceData) (meta : Config) (p v : String) (f : Int)
    (h : Call.Put p v f ∈ (resourceConsulKeysUpdate hash d meta []).2.2) :
    ∃ dc log₁, getDC d (getClient meta) meta [] = (Except.ok dc, log₁) ∧ HasChange d = true ∧
      ((writePhase hash d meta dc log₁).1 = none → p ∈ (writePhase hash d meta dc log₁).2.1) := by
  rcases update_cases hash d meta [] with ⟨err, log₁, hdc, hu⟩ | ⟨dc, log₁, hdc, hcase⟩
  · rw [hu] at h
    have := getDC_nil_calls d meta _ log₁ hdc _ h
    simp at this
  · have hlog := getDC_nil_calls d meta _ log₁ hdc
    have fromW : Call.Put p v f ∈ (writePhase hash d meta dc log₁).2.2 →
        ((writePhase hash d meta dc log₁).1 = none → p ∈ (writePhase hash d meta dc log₁).2.1) := by
      intro h
      rcases writePhase_calls hash d meta dc log₁ hlog _ h with h | ⟨q, _, _, hq, h1⟩
      · simp at h
      · simp only [Call.Put.injEq] at hq
        rw [hq.1]
        exact h1
    have fromD : Call.Put p v f ∈ (deletePhase hash d meta dc log₁).2 →
        ((writePhase hash d meta dc log₁).1 = none → p ∈ (writePhase hash d meta dc log₁).2.1) := by
      intro h
      rcases deletePhase_calls hash d meta dc log₁ hlog _ h with h | ⟨q, _, _, hq, h1⟩ | ⟨q, hq, _⟩
      · simp at h
      · simp only [Call.Put.injEq] at hq
        rw [hq.1]
        exact h1
      · simp at hq
    rcases hcase with ⟨hch, hu⟩ | ⟨hch, err, hw, hu⟩ | ⟨hch, hw, err, hdl, hu⟩ | ⟨hch, hw, hdl, hu⟩
    · rw [hu] at h
      rcases read_calls _ _ _ _ h with h | h | ⟨q, h⟩
      · have := hlog _ h
        simp at this
      · simp at h
      · simp at h
    · rw [hu] at h
      exact ⟨dc, log₁, hdc, hch, fromW h⟩
    · rw [hu] at h
      exact ⟨dc, log₁, hdc, hch, fromD h⟩
    · rw [hu] at h
      rcases read_calls _ _ _ _ h with h | h | ⟨q, h⟩
      · exact ⟨dc, log₁, hdc, hch, fromD h⟩
      · simp at h
      · simp at h

/-! ## The calls that each part appends -/

theorem getDC_appends (d : ResourceData) (client : Client) (meta : Config) (log : List Call) :
    ∃ t, (getDC d client meta log).2 = log ++ t ∧ ∀ c ∈ t, c = Call.Self := by
  have one : ∃ t, log ++ [Call.Self] = log ++ t ∧ ∀ c ∈ t, c = Call.Self :=
    ⟨[Call.Self], rfl, by simp⟩
  unfold getDC
  split
  · exact ⟨[], by simp, by simp⟩
  · split
    · split
      · exact one
      · split <;> exact one
    · exact one
    · exact one

theorem addLoop_appends (kc : KeyClient) (l : List Raw) (a : List String) (log : List Call) :
    ∃ t, (addLoop kc l a log).2.2 = log ++ t ∧ ∀ c ∈ t, ∃ p v f, c = Call.Put p v f := by
  induction l generalizing a log with
  | nil => exact ⟨[], by simp [addLoop], by simp⟩
  | cons raw rest ih =>
    simp only [addLoop]
    split
    · exact ⟨[], by simp, by simp⟩
    · rename_i key path sub hparse
      split
      · rename_i value hvalue
        split
        · exact ih a log
        · split
          · rename_i flags hflags
            split
            · exact ⟨[Call.Put path value flags], rfl, by simp⟩
            · obtain ⟨t, ht, hall⟩ := ih (path :: a) (log ++ [Call.Put path value flags])
              refine ⟨Call.Put path value flags :: t, by simp [ht], ?_⟩
              intro c hc
              rcases List.mem_cons.mp hc with h | h
              · exact ⟨_, _, _, h⟩
              · exact hall c h
          · exact ⟨[], by simp, by simp⟩
      · exact ⟨[], by simp, by simp⟩

theorem flaggedPaths_cons_sublist (raw : Raw) (rest : List Raw) :
    (flaggedPaths rest).Sublist (flaggedPaths (raw :: rest)) :=
  List.Sublist.filterMap flaggedPath (List.sublist_cons_self raw rest)

theorem flaggedPaths_cons_flagged (raw : Raw) (rest : List Raw) (sub : Sub) (path : String)
    (hraw : raw = Raw.map sub) (hpath : sub.path = some (Value.str path))
    (hdel : sub.delete = some (Value.bool true)) :
    flaggedPaths (raw :: rest) = path :: flaggedPaths rest := by
  simp [flaggedPaths, List.filterMap_cons, flaggedPath, hraw, hpath, hdel]

theorem removeLoop_deletes (kc : KeyClient) (l : List Raw) (a : List String) (log : List Call) :
    ∃ t : List String, (removeLoop kc l a log).2 = log ++ t.map Call.Delete ∧
      t.Sublist (flaggedPaths l) := by
  induction l generalizing log with
  | nil => exact ⟨[], by simp [removeLoop], by simp⟩
  | cons raw rest ih =>
    have skip : ∀ log₁, ∃ t : List String,
        (removeLoop kc rest a log₁).2 = log₁ ++ t.map Call.Delete ∧
        t.Sublist (flaggedPaths (raw :: rest)) := by
      intro log₁
      obtain ⟨t, ht, hs⟩ := ih log₁
      exact ⟨t, ht, hs.trans (flaggedPaths_cons_sublist raw rest)⟩
    simp only [removeLoop]
    split
    · exact ⟨[], by simp, by simp⟩
    · rename_i key path sub hparse
      obtain ⟨hraw, _, hpath⟩ := parseKey_ok raw key path sub hparse
      split
      · exact skip log
      · split
        · rename_i hdel
          rw [flaggedPaths_cons_flagged raw rest sub path hraw hpath hdel]
          split
          · exact ⟨[path], rfl, by simp⟩
          · obtain ⟨t, ht, hs⟩ := ih (log ++ [Call.Delete path])
            exact ⟨path :: t, by simp [ht], hs.cons₂ path⟩
        · exact skip log

theorem deleteLoop_deletes (kc : KeyClient) (l : List Raw) (log : List Call) :
    ∃ t : List String, (deleteLoop kc l log).2 = log ++ t.map Call.Delete ∧
      t.Sublist (flaggedPaths l) := by
  induction l generalizing log with
  | nil => exact ⟨[], by simp [deleteLoop], by simp⟩
  | cons raw rest ih =>
    have skip : ∀ log₁, ∃ t : List String,
        (deleteLoop kc rest log₁).2 = log₁ ++ t.map Call.Delete ∧
        t.Sublist (flaggedPaths (raw :: rest)) := by
      intro log₁
      obtain ⟨t, ht, hs⟩ := ih log₁
      exact ⟨t, ht, hs.trans (flaggedPaths_cons_sublist raw rest)⟩
    simp only [deleteLoop]
    split
    · exact ⟨[], by simp, by simp⟩
    · rename_i key path sub hparse
      obtain ⟨hraw, _, hpath⟩ := parseKey_ok raw key path sub hparse
      split
      · rename_i hdel
        rw [flaggedPaths_cons_flagged raw rest sub path hraw hpath hdel]
        split
        · exact ⟨[path], rfl, by simp⟩
        · obtain ⟨t, ht, hs⟩ := ih (log ++ [Call.Delete path])
          exact ⟨path :: t, by simp [ht], hs.cons₂ path⟩
      · exact skip log

theorem readLoop_appends (kc : KeyClient) (l : List Raw) (vars : List (String × String))
    (log : List Call) :
    ∃ t, (readLoop kc l vars log).2 = log ++ t ∧ ∀ c ∈ t, ∃ p, c = Call.Get p := by
  induction l generalizing vars log with
  | nil => exact ⟨[], by simp [readLoop], by simp⟩
  | cons raw rest ih =>
    simp only [readLoop]
    split
    · exact ⟨[], by simp, by simp⟩
    · rename_i key path sub hparse
      split
      · exact ⟨[Call.Get path], rfl, by simp⟩
      · have step : ∀ vars₁, ∃ t,
            (readLoop kc rest vars₁ (log ++ [Call.Get path])).2 = log ++ t ∧
            ∀ c ∈ t, ∃ p, c = Call.Get p := by
          intro vars₁
          obtain ⟨t, ht, hall⟩ := ih vars₁ (log ++ [Call.Get path])
          refine ⟨Call.Get path :: t, by simp [ht], ?_⟩
          intro c hc
          rcases List.mem_cons.mp hc with h | h
          · exact ⟨_, h⟩
          · exact hall c h
        split
        · rename_i heq
          have h := congrArg Prod.snd heq
          simp only [] at h ⊢
          rw [← h]
          exact step _
        · rename_i heq
          have h := congrArg Prod.snd heq
          simp only [] at h ⊢
          rw [← h]
          exact step _

theorem read_appends (d : ResourceData) (meta : Config) (log : List Call) :
    ∃ t, (resourceConsulKeysRead d meta log).2.2 = log ++ t ∧
      ∀ c ∈ t, c = Call.Self ∨ ∃ p, c = Call.Get p := by
  unfold resourceConsulKeysRead
  simp only []
  obtain ⟨t₁, ht₁, hall₁⟩ := getDC_appends d (getClient meta) meta log
  rcases hdc : getDC d (getClient meta) meta log with ⟨err | dc, log₁⟩
  · rw [hdc] at ht₁
    exact ⟨t₁, ht₁, fun c hc => Or.inl (hall₁ c hc)⟩
  · rw [hdc] at ht₁
    simp only [] at ht₁ ⊢
    obtain ⟨t₂, ht₂, hall₂⟩ :=
      readLoop_appends (newKeyClient (getClient meta) dc d.token) d.key [] log₁
    have key : ∃ t, (readLoop (newKeyClient (getClient meta) dc d.token) d.key [] log₁).2 =
        log ++ t ∧ ∀ c ∈ t, c = Call.Self ∨ ∃ p, c = Call.Get p := by
      refine ⟨t₁ ++ t₂, by rw [ht₂, ht₁, List.append_assoc], ?_⟩
      intro c hc
      rcases List.mem_append.mp hc with h | h
      · exact Or.inl (hall₁ c h)
      · exact Or.inr (hall₂ c h)
    rcases hl : readLoop (newKeyClient (getClient meta) dc d.token) d.key [] log₁
      with ⟨err | ⟨keys, vars⟩, log₂⟩
    · rw [hl] at key
      exact key
    · rw [hl] at key
      exact key

theorem deleteTargets_append (l t : List Call) :
    deleteTargets (l ++ t) = deleteTargets l ++ deleteTargets t := by
  simp [deleteTargets, List.filterMap_append]

theorem deleteTargets_map (t : List String) : deleteTargets (t.map Call.Delete) = t := by
  induction t with
  | nil => rfl
  | cons p rest ih =>
    simp only [deleteTargets, List.map_cons, List.filterMap_cons, deleteTarget] at ih ⊢
    rw [ih]

theorem deleteTargets_none (t : List Call) (h : ∀ p, Call.Delete p ∉ t) :
    deleteTargets t = [] := by
  induction t with
  | nil => rfl
  | cons c rest ih =>
    have hrest := ih (fun p hp => h p (List.mem_cons_of_mem _ hp))
    cases c with
    | Delete p => exact (h p (List.mem_cons_self _ _)).elim
    | Self => simpa [deleteTargets, List.filterMap_cons, deleteTarget] using hrest
    | Get p => simpa [deleteTargets, List.filterMap_cons, deleteTarget] using hrest
    | Put p v f => simpa [deleteTargets, List.filterMap_cons, deleteTarget] using hrest

theorem update_deleteTargets {H : Type} [DecidableEq H] (hash : Raw → H)
    (d : ResourceData) (meta : Config) :
    (deleteTargets (resourceConsulKeysUpdate hash d meta []).2.2).Sublist
      (flaggedPaths (Difference hash d.oldKey d.key)) := by
  have noSelf : ∀ t : List Call, (∀ c ∈ t, c = Call.Self) → deleteTargets t = [] := by
    intro t ht
    apply deleteTargets_none
    intro p hp
    cases ht _ hp
  have noRead : ∀ t : List Call, (∀ c ∈ t, c = Call.Self ∨ ∃ p, c = Call.Get p) →
      deleteTargets t = [] := by
    intro t ht
    apply deleteTargets_none
    intro p hp
    rcases ht _ hp with h | ⟨_, h⟩ <;> cases h
  have noPut : ∀ t : List Call, (∀ c ∈ t, ∃ p v f, c = Call.Put p v f) →
      deleteTargets t = [] := by
    intro t ht
    apply deleteTargets_none
    intro p hp
    obtain ⟨_, _, _, h⟩ := ht _ hp
    cases h
  obtain ⟨t₁, ht₁, hall₁⟩ := getDC_appends d (getClient meta) meta []
  rcases update_cases hash d meta [] with ⟨err, log₁, hdc, hu⟩ | ⟨dc, log₁, hdc, hcase⟩
  · rw [hu]
    rw [hdc] at ht₁
    simp only [List.nil_append] at ht₁
    simp only []
    rw [ht₁, noSelf t₁ hall₁]
    exact List.nil_sublist _
  · rw [hdc] at ht₁
    simp only [List.nil_append] at ht₁
    have h₁ : deleteTargets log₁ = [] := by rw [ht₁]; exact noSelf t₁ hall₁
    obtain ⟨tw, htw, hallw⟩ := addLoop_appends (newKeyClient (getClient meta) dc d.token)
      (Difference hash d.key d.oldKey) [] log₁
    have hw₂ : deleteTargets (writePhase hash d meta dc log₁).2.2 = [] := by
      simp only [writePhase]
      rw [htw, deleteTargets_append, h₁, noPut tw hallw]
      rfl
    obtain ⟨td, htd, hsd⟩ := removeLoop_deletes (newKeyClient (getClient meta) dc d.token)
      (Difference hash d.oldKey d.key) (writePhase hash d meta dc log₁).2.1
      (writePhase hash d meta dc log₁).2.2
    have hd₂ : deleteTargets (deletePhase hash d meta dc log₁).2 = td := by
      simp only [deletePhase]
      rw [htd, deleteTargets_append, hw₂, deleteTargets_map]
      rfl
    rcases hcase with ⟨hch, hu⟩ | ⟨hch, err, hw, hu⟩ | ⟨hch, hw, err, hdl, hu⟩ | ⟨hch, hw, hdl, hu⟩
    · rw [hu]
      obtain ⟨tr, htr, hallr⟩ := read_appends { d with datacenter := dc } meta log₁
      rw [htr, deleteTargets_append, h₁, noRead tr hallr]
      exact List.nil_sublist _
    · rw [hu]
      simp only []
      rw [hw₂]
      exact List.nil_sublist _
    · rw [hu]
      simp only []
      rw [hd₂]
      exact hsd
    · rw [hu]
      obtain ⟨tr, htr, hallr⟩ := read_appends { d with datacenter := dc } meta
        (deletePhase hash d meta dc log₁).2
      rw [htr, deleteTargets_append, hd₂, noRead tr hallr, List.append_nil]
      exact hsd

theorem teardown_deleteTargets (d : ResourceData) (meta : Config) :
    (deleteTargets (resourceConsulKeysDelete d meta []).2.2).Sublist (flaggedPaths d.key) := by
  obtain ⟨t₁, ht₁, hall₁⟩ := getDC_appends d (getClient meta) meta []
  have h₁ : deleteTargets (getDC d (getClient meta) meta []).2 = [] := by
    rw [ht₁]
    apply deleteTargets_none
    intro p hp
    cases hall₁ _ (by simpa using hp)
  unfold resourceConsulKeysDelete
  simp only []
  rcases hdc : getDC d (getClient meta) meta [] with ⟨err | dc, log₁⟩
  · rw [hdc] at h₁
    simp only [] at h₁ ⊢
    rw [h₁]
    exact List.nil_sublist _
  · rw [hdc] at h₁
    simp only [] at h₁ ⊢
    obtain ⟨td, htd, hsd⟩ :=
      deleteLoop_deletes (newKeyClient (getClient meta) dc d.token) d.key log₁
    have key : (deleteTargets
        (deleteLoop (newKeyClient (getClient meta) dc d.token) d.key log₁).2).Sublist
        (flaggedPaths d.key) := by
      rw [htd, deleteTargets_append, h₁, deleteTargets_map]
      exact hsd
    rcases hl : deleteLoop (newKeyClient (getClient meta) dc d.token) d.key log₁
      with ⟨_ | err, log₂⟩
    · rw [hl] at key
      exact key
    · rw [hl] at key
      exact key

/-! ## The set difference goes by hash code -/

/-- With previous = [{path p, value 1, delete true}, {path q, value 3}] and desired =
[{path p, value 2, delete true}], when the desired entry has the hash code of the entry
with path q, the set holds no entry to add and one entry to remove, and the run deletes
p: the differences go by code, not by the record. -/
theorem Difference_by_code :
    Difference (collide (entry "p" "2" true) (entry "q" "3" false))
      [entry "p" "2" true] [entry "p" "1" true, entry "q" "3" false] = [] ∧
    Difference (collide (entry "p" "2" true) (entry "q" "3" false))
      [entry "p" "1" true, entry "q" "3" false] [entry "p" "2" true] = [entry "p" "1" true] ∧
    (resourceConsulKeysUpdate (collide (entry "p" "2" true) (entry "q" "3" false))
      (resource [entry "p" "1" true, entry "q" "3" false] [entry "p" "2" true])
      (memConfig [("p", "1", 0), ("q", "3", 0)]) []).2.2 = [Call.Delete "p", Call.Get "p"] := by
  decide

/-- Under the hash code that tells all items apart, the difference is the difference of
whole records. -/
theorem Difference_wholeRecord (s other : List Raw) :
    Difference wholeRecord s other = s.filter (fun x => decide (x ∉ other)) := by
  simp [Difference, wholeRecord]

/-! ## The claims -/

/-- C2, as stated, fails: with no datacenter on the resource, the agent query failing
with "connection refused" (not a permission-denied message) and the provider default
datacenter "dc9", getDC returns "dc9" and no error. -/
theorem C2_counterexample :
    noDatacenter.datacenter = "" ∧
    (failingAgent "connection refused").Self [] = Except.error "connection refused" ∧
    HasSuffix "connection refused" "403 (Permission denied)" = false ∧
    getDC noDatacenter (failingAgent "connection refused")
      { Datacenter := "dc9", client := failingAgent "connection refused" } [] =
      (Except.ok "dc9", [Call.Self]) :=
  ⟨rfl, rfl, by decide, rfl⟩

/-- C2, amended: with no datacenter on the resource, when the agent query fails with an
error that is not a permission-denied error, getDC returns an error whose message wraps
the cause if the provider default datacenter is empty, and returns the provider default
datacenter with no error if it is not empty. -/
theorem C2_getDC_other_failure (d : ResourceData) (client : Client) (meta : Config)
    (log : List Call) (err : String) (hd : d.datacenter = "")
    (hself : client.Self log = Except.error err)
    (hperm : HasSuffix err "403 (Permission denied)" = false) :
    (meta.Datacenter = "" → (getDC d client meta log).1 =
      Except.error (Err.error ("Failed to get datacenter from Consul agent: " ++ err))) ∧
    (meta.Datacenter ≠ "" → (getDC d client meta log).1 = Except.ok meta.Datacenter) := by
  unfold getDC
  simp [hd, hself, hperm]
  constructor
  · intro h
    simp [h]
  · intro h
    simp [h]

theorem C2_getDC_other_failure_witness :
    (getDC noDatacenter (failingAgent "connection refused")
      { Datacenter := "", client := failingAgent "connection refused" } []).1 =
      Except.error (Err.error
        ("Failed to get datacenter from Consul agent: " ++ "connection refused")) :=
  (C2_getDC_other_failure noDatacenter (failingAgent "connection refused")
    { Datacenter := "", client := failingAgent "connection refused" } [] "connection refused"
    rfl rfl (by decide)).1 rfl

/-- C3: with no datacenter on the resource, when the agent query fails with a message
that ends in "403 (Permission denied)", getDC returns no error, and the datacenter it
returns is the provider default if that is not empty and the empty string otherwise. -/
theorem C3_getDC_permission_denied (d : ResourceData) (client : Client) (meta : Config)
    (log : List Call) (err : String) (hd : d.datacenter = "")
    (hself : client.Self log = Except.error err)
    (hperm : HasSuffix err "403 (Permission denied)" = true) :
    (getDC d client meta log).1 =
      Except.ok (if meta.Datacenter ≠ "" then meta.Datacenter else "") := by
  unfold getDC
  simp only [hd, hself, hperm]
  by_cases h : meta.Datacenter = "" <;> simp [h]

theorem C3_getDC_permission_denied_witness :
    (getDC noDatacenter (failingAgent "Unexpected response code: 403 (Permission denied)")
      { Datacenter := "",
        client := failingAgent "Unexpected response code: 403 (Permission denied)" } []).1 =
      Except.ok "" :=
  C3_getDC_permission_denied noDatacenter
    (failingAgent "Unexpected response code: 403 (Permission denied)")
    { Datacenter := "",
      client := failingAgent "Unexpected response code: 403 (Permission denied)" } []
    "Unexpected response code: 403 (Permission denied)" rfl rfl (by decide)

/-- C4: attributeValue is a total function that equals the reference resolution on every
key block and every store value: a store value that is not empty is returned as it is;
with an empty store value a string default is returned as it is, a boolean default as
"true" or "false", and any other or no default gives the empty string. In particular
Resolve("", "fallback") = "fallback", Resolve("live", "fallback") = "live" and
Resolve("", true) = "true". -/
theorem C4_attributeValue_reference :
    (∀ sub v, attributeValue sub v = resolveReference sub v) ∧
    (∀ sub v, v ≠ "" → attributeValue sub v = v) ∧
    (∀ sub s, sub.default = some (Value.str s) → attributeValue sub "" = s) ∧
    (∀ sub, sub.default = some (Value.bool true) → attributeValue sub "" = "true") ∧
    (∀ sub, sub.default = some (Value.bool false) → attributeValue sub "" = "false") ∧
    (∀ sub, (∀ s, sub.default ≠ some (Value.str s)) →
      (∀ b, sub.default ≠ some (Value.bool b)) → attributeValue sub "" = "") ∧
    attributeValue (withDefault (some (Value.str "fallback"))) "" = "fallback" ∧
    attributeValue (withDefault (some (Value.str "fallback"))) "live" = "live" ∧
    attributeValue (withDefault (some (Value.bool true))) "" = "true" := by
  refine ⟨?_, ?_, ?_, ?_, ?_, ?_, by decide, by decide, by decide⟩
  · intro sub v
    unfold attributeValue resolveReference
    rcases h : sub.default with _ | (s | b | n | _)
    · rfl
    · rfl
    · cases b <;> simp [FormatBool]
    · rfl
    · rfl
  · intro sub v hv
    simp [attributeValue, hv]
  · intro sub s h
    simp [attributeValue, h]
  · intro sub h
    simp [attributeValue, h, FormatBool]
  · intro sub h
    simp [attributeValue, h, FormatBool]
  · intro sub h1 h2
    rcases h : sub.default with _ | (s | b | n | _)
    · simp [attributeValue, h]
    · exact absurd h (h1 s)
    · exact absurd h (h2 b)
    · simp [attributeValue, h]
    · simp [attributeValue, h]

theorem C4_attributeValue_reference_witness :
    attributeValue (withDefault none) "live" = "live" ∧
    attributeValue (withDefault (some (Value.str "fallback"))) "" = "fallback" ∧
    attributeValue (withDefault (some (Value.bool true))) "" = "true" ∧
    attributeValue (withDefault (some (Value.bool false))) "" = "false" ∧
    attributeValue (withDefault (some (Value.int 7))) "" = "" :=
  ⟨C4_attributeValue_reference.2.1 (withDefault none) "live" (by decide),
   C4_attributeValue_reference.2.2.1 (withDefault (some (Value.str "fallback"))) "fallback" rfl,
   C4_attributeValue_reference.2.2.2.1 (withDefault (some (Value.bool true))) rfl,
   C4_attributeValue_reference.2.2.2.2.1 (withDefault (some (Value.bool false))) rfl,
   C4_attributeValue_reference.2.2.2.2.2.1 (withDefault (some (Value.int 7)))
     (by intro s; simp [withDefault]) (by intro b; simp [withDefault])⟩

/-- C1, as stated, fails: previous = [{path a, value 1, delete true}] and desired =
[{path a, value "", delete true}], two entries that the hash code tells apart. Path a is
the path of an entry of toAdd and of an entry of toRemove; the write phase skips the empty
value, records no added path, and the delete phase calls Delete("a"). -/
theorem C1_counterexample :
    Difference wholeRecord (resource [entry "a" "1" true] [entry "a" "" true]).key
      (resource [entry "a" "1" true] [entry "a" "" true]).oldKey = [entry "a" "" true] ∧
    Difference wholeRecord (resource [entry "a" "1" true] [entry "a" "" true]).oldKey
      (resource [entry "a" "1" true] [entry "a" "" true]).key = [entry "a" "1" true] ∧
    (resourceConsulKeysUpdate wholeRecord (resource [entry "a" "1" true] [entry "a" "" true])
      (memConfig [("a", "1", 0)]) []).2.2 = [Call.Delete "a", Call.Get "a"] := by
  decide

/-- C1, amended: with toAdd and toRemove the two differences that the set computes by
hash code, whatever the hash code, if some path is the path of an entry of toAdd whose
value is not the empty string and also the path of an entry of toRemove, then Delete is
never called on that path during that run of resourceConsulKeysUpdate. -/
theorem C1_rewritten_path_not_deleted {H : Type} [DecidableEq H] (hash : Raw → H)
    (d : ResourceData) (meta : Config) (p : String)
    (subA subR : Sub)
    (hA : Raw.map subA ∈ Difference hash d.key d.oldKey) (hAp : subA.path = some (Value.str p))
    (hAv : subA.value ≠ some (Value.str ""))
    (_hR : Raw.map subR ∈ Difference hash d.oldKey d.key) (_hRp : subR.path = some (Value.str p)) :
    Call.Delete p ∉ (resourceConsulKeysUpdate hash d meta []).2.2 := by
  intro h
  obtain ⟨dc, log₁, _, _, hw, hnot, _⟩ := update_delete hash d meta p h
  exact hnot (addLoop_covers _ _ _ _ hw subA p hA hAp hAv)

theorem C1_rewritten_path_not_deleted_witness :
    Call.Delete "k" ∉ (resourceConsulKeysUpdate wholeRecord
      (resource [entry "k" "old" true, entry "z" "9" true] [entry "k" "new" false])
      (memConfig [("k", "old", 0)]) []).2.2 :=
  C1_rewritten_path_not_deleted wholeRecord
    (resource [entry "k" "old" true, entry "z" "9" true] [entry "k" "new" false])
    (memConfig [("k", "old", 0)]) "k"
    { name := some (Value.str ""), path := some (Value.str "k"),
      value := some (Value.str "new"), flags := some (Value.int 0), default := none,
      delete := some (Value.bool false) }
    { name := some (Value.str ""), path := some (Value.str "k"),
      value := some (Value.str "old"), flags := some (Value.int 0), default := none,
      delete := some (Value.bool true) }
    (by decide) rfl (by decide) (by decide) rfl

/-- C5: deletion gating. Every Delete that resourceConsulKeysUpdate issues is for the path
of an entry of toRemove whose delete flag is true, and every Delete that
resourceConsulKeysDelete issues is for the path of a tracked entry whose delete flag is
true; so if no entry of toRemove (no tracked entry, in teardown) has the flag true (it is
false, absent or no boolean), the run issues no Delete. The paths passed to Delete, in the
order of the calls, are a sublist of the paths of the flagged entries, so that no entry
accounts for more than one Delete. In teardown, a run that returns nil has issued exactly
one Delete for each tracked entry whose flag is true, in order, and teardown returns nil
whenever every tracked entry parses and no Delete fails. With previous =
[{path a, value 1, delete true}] and desired = [] the calls are the single Delete("a"), in
teardown and in the update. -/
theorem C5_deletion_gating {H : Type} [DecidableEq H] (hash : Raw → H) :
    (∀ d meta p, Call.Delete p ∈ (resourceConsulKeysUpdate hash d meta []).2.2 →
      ∃ sub, Raw.map sub ∈ Difference hash d.oldKey d.key ∧ sub.path = some (Value.str p) ∧
        sub.delete = some (Value.bool true)) ∧
    (∀ d meta p, Call.Delete p ∈ (resourceConsulKeysDelete d meta []).2.2 →
      ∃ sub, Raw.map sub ∈ d.key ∧ sub.path = some (Value.str p) ∧
        sub.delete = some (Value.bool true)) ∧
    (∀ d meta, (∀ sub, Raw.map sub ∈ Difference hash d.oldKey d.key →
        sub.delete ≠ some (Value.bool true)) →
      ∀ p, Call.Delete p ∉ (resourceConsulKeysUpdate hash d meta []).2.2) ∧
    (∀ d meta, (∀ sub, Raw.map sub ∈ d.key → sub.delete ≠ some (Value.bool true)) →
      ∀ p, Call.Delete p ∉ (resourceConsulKeysDelete d meta []).2.2) ∧
    (∀ d meta, (resourceConsulKeysDelete d meta []).1 = none →
      (resourceConsulKeysDelete d meta []).2.2 =
        (getDC d (getClient meta) meta []).2 ++ (flaggedPaths d.key).map Call.Delete) ∧
    (∀ d meta dc log₁, getDC d (getClient meta) meta [] = (Except.ok dc, log₁) →
      (∀ raw ∈ d.key, ∃ r, parseKey raw = Except.ok r) →
      (∀ h p, (newKeyClient (getClient meta) dc d.token).Delete h p = none) →
      (resourceConsulKeysDelete d meta []).1 = none) ∧
    (∀ d meta, (deleteTargets (resourceConsulKeysUpdate hash d meta []).2.2).Sublist
      (flaggedPaths (Difference hash d.oldKey d.key))) ∧
    (∀ d meta, (deleteTargets (resourceConsulKeysDelete d meta []).2.2).Sublist
      (flaggedPaths d.key)) ∧
    (resourceConsulKeysDelete (resource [] [entry "a" "1" true])
      (memConfig [("a", "1", 0)]) []).2.2 = [Call.Delete "a"] ∧
    (resourceConsulKeysUpdate wholeRecord (resource [entry "a" "1" true] [])
      (memConfig [("a", "1", 0)]) []).2.2 = [Call.Delete "a"] := by
  have hU : ∀ d meta p, Call.Delete p ∈ (resourceConsulKeysUpdate hash d meta []).2.2 →
      ∃ sub, Raw.map sub ∈ Difference hash d.oldKey d.key ∧ sub.path = some (Value.str p) ∧
        sub.delete = some (Value.bool true) := by
    intro d meta p h
    obtain ⟨_, _, _, _, _, _, hsub⟩ := update_delete hash d meta p h
    exact hsub
  have hT : ∀ d meta p, Call.Delete p ∈ (resourceConsulKeysDelete d meta []).2.2 →
      ∃ sub, Raw.map sub ∈ d.key ∧ sub.path = some (Value.str p) ∧
        sub.delete = some (Value.bool true) := by
    intro d meta p
    unfold resourceConsulKeysDelete
    simp only []
    rcases hdc : getDC d (getClient meta) meta [] with ⟨err | dc, log₁⟩
    · intro h
      have := getDC_nil_calls d meta _ log₁ hdc _ h
      simp at this
    · simp only []
      have key : Call.Delete p ∈
          (deleteLoop (newKeyClient (getClient meta) dc d.token) d.key log₁).2 →
          ∃ sub, Raw.map sub ∈ d.key ∧ sub.path = some (Value.str p) ∧
            sub.delete = some (Value.bool true) := by
        intro h
        rcases deleteLoop_calls _ _ _ _ h with h | ⟨q, hq, hsub⟩
        · have := getDC_nil_calls d meta _ log₁ hdc _ h
          simp at this
        · simp only [Call.Delete.injEq] at hq
          subst hq
          exact hsub
      rcases hl : deleteLoop (newKeyClient (getClient meta) dc d.token) d.key log₁
        with ⟨_ | err, log₂⟩ <;> rw [hl] at key <;> exact key
  refine ⟨hU, hT, ?_, ?_, ?_, ?_, update_deleteTargets hash, teardown_deleteTargets, by decide,
    by decide⟩
  · intro d meta hall p h
    obtain ⟨sub, hm, _, hd⟩ := hU d meta p h
    exact hall sub hm hd
  · intro d meta hall p h
    obtain ⟨sub, hm, _, hd⟩ := hT d meta p h
    exact hall sub hm hd
  · intro d meta
    unfold resourceConsulKeysDelete
    simp only []
    rcases hdc : getDC d (getClient meta) meta [] with ⟨err | dc, log₁⟩
    · simp
    · simp only []
      have key := deleteLoop_ok (newKeyClient (getClient meta) dc d.token) d.key log₁
      rcases hl : deleteLoop (newKeyClient (getClient meta) dc d.token) d.key log₁
        with ⟨_ | err, log₂⟩
      · rw [hl] at key
        intro _
        exact key rfl
      · simp
  · intro d meta dc log₁ hdc hwf hnf
    have key := deleteLoop_total (newKeyClient (getClient meta) dc d.token) d.key log₁ hwf hnf
    unfold resourceConsulKeysDelete
    simp only [hdc]
    rcases hl : deleteLoop (newKeyClient (getClient meta) dc d.token) d.key log₁
      with ⟨_ | err, log₂⟩
    · rfl
    · rw [hl] at key
      simp at key

theorem C5_deletion_gating_witness :
    (∀ p, Call.Delete p ∉ (resourceConsulKeysUpdate wholeRecord
      (resource [entry "a" "1" false, entry "b" "2" false] [entry "b" "2" false])
      (memConfig []) []).2.2) ∧
    (∀ p, Call.Delete p ∉ (resourceConsulKeysDelete
      (resource [] [entry "a" "1" false]) (memConfig []) []).2.2) ∧
    (resourceConsulKeysDelete (resource [] [entry "a" "1" true, entry "b" "2" false])
      (memConfig []) []).2.2 = [] ++ [Call.Delete "a"] ∧
    (resourceConsulKeysDelete (resource [] [entry "a" "1" true, entry "b" "2" false])
      (memConfig []) []).1 = none ∧
    (∃ sub, Raw.map sub ∈ [entry "a" "1" true] ∧ sub.path = some (Value.str "a") ∧
      sub.delete = some (Value.bool true)) :=
  ⟨(C5_deletion_gating wholeRecord).2.2.1 _ _ (by
      intro sub h
      have hd : Difference wholeRecord
          (resource [entry "a" "1" false, entry "b" "2" false] [entry "b" "2" false]).oldKey
          (resource [entry "a" "1" false, entry "b" "2" false] [entry "b" "2" false]).key =
          [entry "a" "1" false] := by decide
      rw [hd] at h
      simp only [List.mem_singleton, entry, Raw.map.injEq] at h
      subst h
      decide),
   (C5_deletion_gating wholeRecord).2.2.2.1 _ _ (by
      intro sub h
      simp only [resource, List.mem_singleton, entry, Raw.map.injEq] at h
      subst h
      decide),
   (C5_deletion_gating wholeRecord).2.2.2.2.1 _ _ (by decide),
   (C5_deletion_gating wholeRecord).2.2.2.2.2.1 _ _ "dc1" [] rfl (by
      intro raw h
      simp only [resource, List.mem_cons, List.mem_singleton, List.not_mem_nil, or_false] at h
      rcases h with rfl | rfl <;> exact ⟨_, rfl⟩) (fun _ _ => rfl),
   (C5_deletion_gating wholeRecord).2.1 (resource [] [entry "a" "1" true]) (memConfig []) "a" (by decide)⟩

/-- C6: idempotence. When the previous and the desired key set hold the same entries
(whole-record equality), toAdd and toRemove are both empty and resourceConsulKeysUpdate
issues no Put and no Delete: every call of the run is the agent query of getDC or a Get,
and the run is the run of the read-back resourceConsulKeysRead after getDC. -/
theorem C6_idempotent_update {H : Type} [DecidableEq H] (hash : Raw → H)
    (d : ResourceData) (meta : Config)
    (hsame : ∀ x, x ∈ d.oldKey ↔ x ∈ d.key) :
    Difference hash d.key d.oldKey = [] ∧ Difference hash d.oldKey d.key = [] ∧
    (∀ p v f, Call.Put p v f ∉ (resourceConsulKeysUpdate hash d meta []).2.2) ∧
    (∀ p, Call.Delete p ∉ (resourceConsulKeysUpdate hash d meta []).2.2) ∧
    (∀ c ∈ (resourceConsulKeysUpdate hash d meta []).2.2, c = Call.Self ∨ ∃ p, c = Call.Get p) ∧
    (∀ dc log₁, getDC d (getClient meta) meta [] = (Except.ok dc, log₁) →
      resourceConsulKeysUpdate hash d meta [] =
        resourceConsulKeysRead { d with datacenter := dc } meta log₁) := by
  have hadd : Difference hash d.key d.oldKey = [] := by
    simp only [Difference, List.filter_eq_nil_iff, decide_eq_true_eq, not_not]
    exact fun x hx => List.mem_map_of_mem hash ((hsame x).mpr hx)
  have hrem : Difference hash d.oldKey d.key = [] := by
    simp only [Difference, List.filter_eq_nil_iff, decide_eq_true_eq, not_not]
    exact fun x hx => List.mem_map_of_mem hash ((hsame x).mp hx)
  have hch : HasChange d = false := by
    simp only [HasChange, Equal, Bool.not_eq_false', Bool.and_eq_true, List.all_eq_true,
      decide_eq_true_eq]
    exact ⟨fun x hx => (hsame x).mp hx, fun x hx => (hsame x).mpr hx⟩
  have hcalls : ∀ c ∈ (resourceConsulKeysUpdate hash d meta []).2.2,
      c = Call.Self ∨ ∃ p, c = Call.Get p := by
    intro c hc
    rcases update_cases hash d meta [] with ⟨err, log₁, hdc, hu⟩ | ⟨dc, log₁, hdc, hcase⟩
    · rw [hu] at hc
      exact Or.inl (getDC_nil_calls d meta _ log₁ hdc _ hc)
    · rcases hcase with ⟨_, hu⟩ | ⟨h, _⟩ | ⟨h, _⟩ | ⟨h, _⟩
      · rw [hu] at hc
        rcases read_calls _ _ _ _ hc with h | h
        · exact Or.inl (getDC_nil_calls d meta _ log₁ hdc _ h)
        · exact h
      · rw [hch] at h
        cases h
      · rw [hch] at h
        cases h
      · rw [hch] at h
        cases h
  refine ⟨hadd, hrem, ?_, ?_, hcalls, ?_⟩
  · intro p v f h
    rcases hcalls _ h with h | ⟨_, h⟩ <;> cases h
  · intro p h
    rcases hcalls _ h with h | ⟨_, h⟩ <;> cases h
  · intro dc log₁ hdc
    simp [resourceConsulKeysUpdate, hdc, hch]

theorem C6_idempotent_update_witness :
    (resourceConsulKeysUpdate wholeRecord (resource [entry "a" "1" true, entry "b" "" false]
      [entry "b" "" false, entry "a" "1" true]) (memConfig [("a", "1", 0)]) []).2.2 =
      [Call.Get "b", Call.Get "a"] ∧
    ∀ p, Call.Delete p ∉ (resourceConsulKeysUpdate wholeRecord
      (resource [entry "a" "1" true, entry "b" "" false]
        [entry "b" "" false, entry "a" "1" true]) (memConfig [("a", "1", 0)]) []).2.2 :=
  ⟨by decide,
   (C6_idempotent_update wholeRecord (resource [entry "a" "1" true, entry "b" "" false]
      [entry "b" "" false, entry "a" "1" true]) (memConfig [("a", "1", 0)])
      (by
        intro x
        simp only [resource, List.mem_cons, List.mem_singleton, List.not_mem_nil, or_false]
        exact Or.comm)).2.2.2.1⟩

/-- C7: added-path suppression. In one run of resourceConsulKeysUpdate a path that a Put
of the write phase was issued for is never passed to Delete, whatever the delete flag of
the removed entry. With previous = [{path a, value 1}] and desired = [{path a, value 2}]
the run issues the one Put("a", "2", 0), no Delete, and the read-back Get("a"); the same
holds when both entries carry delete = true. -/
theorem C7_added_path_suppression {H : Type} [DecidableEq H] (hash : Raw → H) :
    (∀ d meta p v f, Call.Put p v f ∈ (resourceConsulKeysUpdate hash d meta []).2.2 →
      Call.Delete p ∉ (resourceConsulKeysUpdate hash d meta []).2.2) ∧
    (resourceConsulKeysUpdate wholeRecord (resource [entry "a" "1" false] [entry "a" "2" false])
      (memConfig [("a", "1", 0)]) []).2.2 = [Call.Put "a" "2" 0, Call.Get "a"] ∧
    (resourceConsulKeysUpdate wholeRecord (resource [entry "a" "1" true] [entry "a" "2" true])
      (memConfig [("a", "1", 0)]) []).2.2 = [Call.Put "a" "2" 0, Call.Get "a"] := by
  refine ⟨?_, by decide, by decide⟩
  intro d meta p v f hput hdel
  obtain ⟨dc, log₁, hdc, _, himp⟩ := update_put hash d meta p v f hput
  obtain ⟨dc', log₁', hdc', _, hw, hnot, _⟩ := update_delete hash d meta p hdel
  rw [hdc] at hdc'
  simp only [Prod.mk.injEq, Except.ok.injEq] at hdc'
  obtain ⟨h1, h2⟩ := hdc'
  subst h1 h2
  exact hnot (himp hw)

theorem C7_added_path_suppression_witness :
    Call.Delete "a" ∉ (resourceConsulKeysUpdate wholeRecord
      (resource [entry "a" "1" true] [entry "a" "2" true]) (memConfig [("a", "1", 0)]) []).2.2 :=
  (C7_added_path_suppression wholeRecord).1 (resource [entry "a" "1" true] [entry "a" "2" true])
    (memConfig [("a", "1", 0)]) "a" "2" 0 (by decide)

/-! ## The read-back -/

theorem attributeValue_flags (sub : Sub) (flags : Option Value) (v : String) :
    attributeValue { sub with flags := flags } v = attributeValue sub v := rfl

theorem mapGet_mapSet_same (m : List (String × String)) (k v : String) :
    mapGet (mapSet m k v) k = some v := by
  simp [mapSet, mapGet]

theorem mapGet_filter_ne (m : List (String × String)) (k k' : String) (h : k' ≠ k) :
    mapGet (m.filter (fun kv => decide (kv.1 ≠ k))) k' = mapGet m k' := by
  induction m with
  | nil => rfl
  | cons x rest ih =>
    obtain ⟨a, b⟩ := x
    by_cases hak : a = k
    · subst hak
      have hne : ¬ a = k' := fun e => h e.symm
      simp only [List.filter_cons, ne_eq, not_true_eq_false, decide_False, Bool.false_eq_true,
        if_false, mapGet, hne]
      exact ih
    · simp only [List.filter_cons, ne_eq, hak, not_false_eq_true, decide_True, if_true, mapGet]
      rw [ih]

theorem mapGet_mapSet_other (m : List (String × String)) (k k' v : String) (h : k' ≠ k) :
    mapGet (mapSet m k v) k' = mapGet m k' := by
  have hne : ¬ k = k' := fun e => h e.symm
  simp only [mapSet, mapGet, hne, if_false]
  exact mapGet_filter_ne m k k' h

/-- One step of `readLoop` that succeeds. -/
theorem readLoop_cons_ok (kc : KeyClient) (raw : Raw) (rest : List Raw)
    (vars : List (String × String)) (log : List Call) (keys' : List Raw)
    (vars' : List (String × String)) (log' : List Call)
    (h : readLoop kc (raw :: rest) vars log = (Except.ok (keys', vars'), log')) :
    ∃ key path sub value flags keys₁,
      raw = Raw.map sub ∧ sub.name = some (Value.str key) ∧ sub.path = some (Value.str path) ∧
      kc.Get log path = Except.ok (value, flags) ∧
      keys' = Raw.map (readBack sub value flags) :: keys₁ ∧
      readLoop kc rest (if key ≠ "" then mapSet vars key (attributeValue sub value) else vars)
        (log ++ [Call.Get path]) = (Except.ok (keys₁, vars'), log') := by
  revert h
  simp only [readLoop]
  split
  · simp
  · rename_i key path sub hparse
    obtain ⟨hraw, hname, hpath⟩ := parseKey_ok raw key path sub hparse
    split
    · simp
    · rename_i value flags hget
      simp only [attributeValue_flags]
      split
      · simp
      · rename_i keys₁ vars₂ log₁ heq
        intro h
        simp only [Prod.mk.injEq, Except.ok.injEq] at h
        obtain ⟨⟨h1, h2⟩, h3⟩ := h
        subst h1 h2 h3
        exact ⟨key, path, sub, value, flags, keys₁, hraw, hname, hpath, hget, rfl, heq⟩

theorem readLoop_vars_other (kc : KeyClient) (l : List Raw) (vars : List (String × String))
    (log : List Call) (keys' : List Raw) (vars' : List (String × String)) (log' : List Call)
    (h : readLoop kc l vars log = (Except.ok (keys', vars'), log')) (key : String)
    (hno : ∀ (j : Nat) (sub' : Sub), l[j]? = some (Raw.map sub') →
      sub'.name ≠ some (Value.str key)) :
    mapGet vars' key = mapGet vars key := by
  induction l generalizing vars log keys' vars' log' with
  | nil =>
    simp only [readLoop, Prod.mk.injEq, Except.ok.injEq] at h
    obtain ⟨⟨_, h2⟩, _⟩ := h
    rw [h2]
  | cons raw rest ih =>
    obtain ⟨key₀, path, sub₀, value, flags, keys₁, hraw, hname, _, _, _, hrest⟩ :=
      readLoop_cons_ok kc raw rest vars log keys' vars' log' h
    rw [ih _ _ _ _ _ hrest (fun j sub' hj => hno (j + 1) sub' (by simpa using hj))]
    have hne : key ≠ key₀ := by
      intro e
      apply hno 0 sub₀ (by simp [hraw])
      rw [hname, e]
    split
    · exact mapGet_mapSet_other _ _ _ _ hne
    · rfl

theorem readLoop_ok (kc : KeyClient) (l : List Raw) (vars : List (String × String))
    (log : List Call) (keys' : List Raw) (vars' : List (String × String)) (log' : List Call)
    (h : readLoop kc l vars log = (Except.ok (keys', vars'), log')) :
    keys'.length = l.length ∧
    ∀ i sub, l[i]? = some (Raw.map sub) →
      ∃ path value flags, sub.path = some (Value.str path) ∧
        kc.Get (log'.take (log.length + i)) path = Except.ok (value, flags) ∧
        keys'[i]? = some (Raw.map (readBack sub value flags)) ∧
        ∀ key, sub.name = some (Value.str key) → key ≠ "" →
          (∀ j sub', i < j → l[j]? = some (Raw.map sub') → sub'.name ≠ some (Value.str key)) →
          mapGet vars' key = some (attributeValue sub value) := by
  induction l generalizing vars log keys' vars' log' with
  | nil =>
    simp only [readLoop, Prod.mk.injEq, Except.ok.injEq] at h
    obtain ⟨⟨h1, _⟩, _⟩ := h
    subst h1
    simp
  | cons raw rest ih =>
    obtain ⟨key, path, sub₀, value, flags, keys₁, hraw, hname, hpath, hget, hkeys, hrest⟩ :=
      readLoop_cons_ok kc raw rest vars log keys' vars' log' h
    obtain ⟨hlen, hall⟩ := ih _ _ _ _ _ hrest
    have hpre : log ++ [Call.Get path] <+: log' := by
      have := readLoop_extends kc rest
        (if key ≠ "" then mapSet vars key (attributeValue sub₀ value) else vars)
        (log ++ [Call.Get path])
      rw [hrest] at this
      exact this
    subst hkeys
    refine ⟨by simp [hlen], ?_⟩
    intro i sub hi
    cases i with
    | zero =>
      simp only [List.getElem?_cons_zero, Option.some.injEq] at hi
      rw [hraw] at hi
      simp only [Raw.map.injEq] at hi
      subst hi
      have htake : log'.take (log.length + 0) = log := by
        obtain ⟨t, ht⟩ := hpre
        rw [← ht]
        simp
      refine ⟨path, value, flags, hpath, by rw [htake]; exact hget, by simp, ?_⟩
      intro key' hname' hne hlater
      rw [hname] at hname'
      simp only [Option.some.injEq, Value.str.injEq] at hname'
      subst hname'
      rw [readLoop_vars_other kc rest _ _ _ _ _ hrest key
        (fun j sub' hj => hlater (j + 1) sub' (by omega) (by simpa using hj))]
      rw [if_pos hne]
      exact mapGet_mapSet_same _ _ _
    | succ i =>
      simp only [List.getElem?_cons_succ] at hi
      obtain ⟨path', value', flags', hp', hg', hk', hv'⟩ := hall i sub hi
      refine ⟨path', value', flags', hp', ?_, by simpa using hk', ?_⟩
      · have : (log ++ [Call.Get path]).length + i = log.length + (i + 1) := by
          simp only [List.length_append, List.length_singleton]
          omega
        rw [← this]
        exact hg'
      · intro key' hname' hne hlater
        apply hv' key' hname' hne
        intro j sub' hij hj
        exact hlater (j + 1) sub' (by omega) (by simpa using hj)

theorem readLoop_total (kc : KeyClient) (l : List Raw) (vars : List (String × String))
    (log : List Call) (hwf : ∀ raw ∈ l, ∃ r, parseKey raw = Except.ok r)
    (hnf : ∀ h p, ∃ r, kc.Get h p = Except.ok r) :
    ∃ keys vars', (readLoop kc l vars log).1 = Except.ok (keys, vars') := by
  induction l generalizing vars log with
  | nil => exact ⟨[], vars, rfl⟩
  | cons raw rest ih =>
    have ih' := fun vars log => ih vars log (fun r hr => hwf r (List.mem_cons_of_mem _ hr))
    obtain ⟨⟨key, path, sub⟩, hr⟩ := hwf raw (List.mem_cons_self _ _)
    obtain ⟨⟨value, flags⟩, hg⟩ := hnf log path
    simp only [readLoop, hr, hg]
    split
    · rename_i heq
      obtain ⟨keys, vars', h⟩ := ih' _ _
      rw [heq] at h
      cases h
    · exact ⟨_, _, rfl⟩

/-- C8: the read-back value rule of resourceConsulKeysRead. In a read that returns nil,
every entry of the set keeps its position, the Get for its path is answered by the key
client after the calls issued before it, and the value field of the entry afterwards is:
still the empty string if it was the empty string before the read, whatever the store
holds and whatever default is configured; and otherwise the effective value, that is
attributeValue of the value that Get returned and the default of the entry. The read
returns nil whenever getDC gives a datacenter, every entry parses and no Get fails. -/
theorem C8_read_back_value (d : ResourceData) (meta : Config) (log : List Call) (dc : String)
    (log₁ : List Call) (hdc : getDC d (getClient meta) meta log = (Except.ok dc, log₁)) :
    (∀ d' log', resourceConsulKeysRead d meta log = (none, d', log') →
      d'.key.length = d.key.length ∧
      ∀ (i : Nat) (sub : Sub), d.key[i]? = some (Raw.map sub) →
        ∃ path value flags sub', sub.path = some (Value.str path) ∧
          (newKeyClient (getClient meta) dc d.token).Get (log'.take (log₁.length + i)) path =
            Except.ok (value, flags) ∧
          d'.key[i]? = some (Raw.map sub') ∧
          (sub.value = some (Value.str "") → sub'.value = some (Value.str "")) ∧
          (sub.value ≠ some (Value.str "") →
            sub'.value = some (Value.str (attributeValue sub value)))) ∧
    ((∀ raw ∈ d.key, ∃ r, parseKey raw = Except.ok r) →
      (∀ h p, ∃ r, (newKeyClient (getClient meta) dc d.token).Get h p = Except.ok r) →
      (resourceConsulKeysRead d meta log).1 = none) := by
  constructor
  · intro d' log'
    unfold resourceConsulKeysRead
    simp only [hdc]
    rcases hl : readLoop (newKeyClient (getClient meta) dc d.token) d.key [] log₁
      with ⟨err | ⟨keys, vars⟩, log₂⟩
    · simp
    · intro hread
      simp only [Prod.mk.injEq, true_and] at hread
      obtain ⟨h1, h2⟩ := hread
      subst h1 h2
      obtain ⟨hlen, hall⟩ := readLoop_ok _ _ _ _ _ _ _ hl
      refine ⟨hlen, ?_⟩
      intro i sub hi
      obtain ⟨path, value, flags, hp, hg, hk, _⟩ := hall i sub hi
      refine ⟨path, value, flags, readBack sub value flags, hp, hg, hk, ?_, ?_⟩
      · intro hv
        simp [readBack, hv]
      · intro hv
        simp [readBack, hv, attributeValue_flags]
  · intro hwf hnf
    obtain ⟨keys, vars', h⟩ := readLoop_total (newKeyClient (getClient meta) dc d.token)
      d.key [] log₁ hwf hnf
    unfold resourceConsulKeysRead
    simp only [hdc]
    rcases hl : readLoop (newKeyClient (getClient meta) dc d.token) d.key [] log₁
      with ⟨err | ⟨keys₁, vars₁⟩, log₂⟩
    · rw [hl] at h
      cases h
    · rfl

theorem C8_read_back_value_witness :
    (∃ path value flags sub',
      (some (Value.str "a") : Option Value) = some (Value.str path) ∧
      (newKeyClient (getClient (memConfig [("a", "7", 0), ("b", "8", 0)])) "dc1" "").Get
        ([Call.Get "a", Call.Get "b"].take (0 + 0)) path = Except.ok (value, flags) ∧
      [entry "a" "7" false, entry "b" "" false][0]? = some (Raw.map sub') ∧
      ((some (Value.str "1") : Option Value) = some (Value.str "") →
        sub'.value = some (Value.str "")) ∧
      ((some (Value.str "1") : Option Value) ≠ some (Value.str "") →
        sub'.value = some (Value.str (attributeValue
          { name := some (Value.str ""), path := some (Value.str "a"),
            value := some (Value.str "1"), flags := some (Value.int 0), default := none,
            delete := some (Value.bool false) } value)))) ∧
    (resourceConsulKeysRead (resource [] [entry "a" "1" false, entry "b" "" false])
      (memConfig [("a", "7", 0), ("b", "8", 0)]) []).1 = none :=
  ⟨((C8_read_back_value (resource [] [entry "a" "1" false, entry "b" "" false])
      (memConfig [("a", "7", 0), ("b", "8", 0)]) [] "dc1" [] rfl).1
      { id := "consul", datacenter := "dc1", token := "", oldKey := [],
        key := [entry "a" "7" false, entry "b" "" false], var := [] }
      [Call.Get "a", Call.Get "b"] rfl).2 0
      { name := some (Value.str ""), path := some (Value.str "a"),
        value := some (Value.str "1"), flags := some (Value.int 0), default := none,
        delete := some (Value.bool false) } rfl,
   (C8_read_back_value (resource [] [entry "a" "1" false, entry "b" "" false])
      (memConfig [("a", "7", 0), ("b", "8", 0)]) [] "dc1" [] rfl).2
      (by
        intro raw h
        simp only [resource, List.mem_cons, List.mem_singleton, List.not_mem_nil,
          or_false] at h
        rcases h with rfl | rfl <;> exact ⟨_, rfl⟩)
      (by
        intro h p
        simp only [newKeyClient, getClient, memConfig, memClient]
        split <;> exact ⟨_, rfl⟩)⟩

/-- C9, as stated, fails: two entries carry the label x, the first with path a and the
second with path b, and the store holds a = 1 and b = 2. The read returns nil, the
effective value of the first entry is "1", and the var map holds x = "2". -/
theorem C9_counterexample :
    (resourceConsulKeysRead (resource [] [named "x" "a" "", named "x" "b" ""])
      (memConfig [("a", "1", 0), ("b", "2", 0)]) []).1 = none ∧
    (resourceConsulKeysRead (resource [] [named "x" "a" "", named "x" "b" ""])
      (memConfig [("a", "1", 0), ("b", "2", 0)]) []).2.2 = [Call.Get "a", Call.Get "b"] ∧
    (memClient [("a", "1", 0), ("b", "2", 0)]).Get [] "a" = Except.ok ("1", 0) ∧
    attributeValue
      { name := some (Value.str "x"), path := some (Value.str "a"),
        value := some (Value.str ""), flags := some (Value.int 0), default := none,
        delete := some (Value.bool false) } "1" = "1" ∧
    mapGet (resourceConsulKeysRead (resource [] [named "x" "a" "", named "x" "b" ""])
      (memConfig [("a", "1", 0), ("b", "2", 0)]) []).2.1.var "x" = some "2" :=
  ⟨by decide, by decide, rfl, by decide, by decide⟩

/-- C9, amended: in a read that returns nil, for every entry whose label is not empty and
that no later entry of the set (in the order of the read) shares its label with, the var
map maps the label to the effective value of that entry: attributeValue of the value that
Get returned for its path and of its default. -/
theorem C9_aggregate_map (d : ResourceData) (meta : Config) (log : List Call) (dc : String)
    (log₁ : List Call) (d' : ResourceData) (log' : List Call)
    (hdc : getDC d (getClient meta) meta log = (Except.ok dc, log₁))
    (hread : resourceConsulKeysRead d meta log = (none, d', log'))
    (i : Nat) (sub : Sub) (key : String) (hi : d.key[i]? = some (Raw.map sub))
    (hname : sub.name = some (Value.str key)) (hkey : key ≠ "")
    (hlast : ∀ (j : Nat) (sub' : Sub), i < j → d.key[j]? = some (Raw.map sub') →
      sub'.name ≠ some (Value.str key)) :
    ∃ path value flags, sub.path = some (Value.str path) ∧
      (newKeyClient (getClient meta) dc d.token).Get (log'.take (log₁.length + i)) path =
        Except.ok (value, flags) ∧
      mapGet d'.var key = some (attributeValue sub value) := by
  revert hread
  unfold resourceConsulKeysRead
  simp only [hdc]
  rcases hl : readLoop (newKeyClient (getClient meta) dc d.token) d.key [] log₁
    with ⟨err | ⟨keys, vars⟩, log₂⟩
  · simp
  · intro hread
    simp only [Prod.mk.injEq, true_and] at hread
    obtain ⟨h1, h2⟩ := hread
    subst h1 h2
    obtain ⟨_, hall⟩ := readLoop_ok _ _ _ _ _ _ _ hl
    obtain ⟨path, value, flags, hp, hg, _, hv⟩ := hall i sub hi
    exact ⟨path, value, flags, hp, hg, hv key hname hkey hlast⟩

theorem C9_aggregate_map_witness :
    ∃ path value flags, (some (Value.str "b") : Option Value) = some (Value.str path) ∧
      (newKeyClient (getClient (memConfig [("a", "1", 0), ("b", "2", 0)])) "dc1" "").Get
        ([Call.Get "a", Call.Get "b"].take (0 + 1)) path = Except.ok (value, flags) ∧
      mapGet [("x", "2")] "x" = some (attributeValue
        { name := some (Value.str "x"), path := some (Value.str "b"),
          value := some (Value.str ""), flags := some (Value.int 0), default := none,
          delete := some (Value.bool false) } value) :=
  C9_aggregate_map (resource [] [named "x" "a" "", named "x" "b" ""])
    (memConfig [("a", "1", 0), ("b", "2", 0)]) [] "dc1" []
    { id := "consul", datacenter := "dc1", token := "", oldKey := [],
      key := [named "x" "a" "", named "x" "b" ""], var := [("x", "2")] }
    [Call.Get "a", Call.Get "b"] rfl rfl 1
    { name := some (Value.str "x"), path := some (Value.str "b"),
      value := some (Value.str ""), flags := some (Value.int 0), default := none,
      delete := some (Value.bool false) } "x" rfl rfl (by decide)
    (by
      intro j sub' hj h
      have : (resource [] [named "x" "a" "", named "x" "b" ""]).key[j]? = none := by
        apply List.getElem?_eq_none
        simp only [resource, List.length_cons, List.length_nil]
        omega
      rw [this] at h
      cases h)

/-! ## Abort on a store failure -/

theorem allSucceeded_nil (kc : KeyClient) : AllSucceeded kc [] := by
  intro h c rest heq
  simp at heq

theorem allSucceeded_snoc (kc : KeyClient) (log : List Call) (c : Call)
    (hlog : AllSucceeded kc log)
    (hput : ∀ p v f, c = Call.Put p v f → kc.Put log p v f = none)
    (hdel : ∀ p, c = Call.Delete p → kc.Delete log p = none) :
    AllSucceeded kc (log ++ [c]) := by
  intro h c' rest heq
  rcases List.eq_nil_or_concat rest with hr | ⟨rest', x, hr⟩
  · subst hr
    obtain ⟨h1, h2⟩ := List.append_inj' heq rfl
    subst h1
    simp only [List.cons.injEq, and_true] at h2
    subst h2
    exact ⟨hput, hdel⟩
  · rw [List.concat_eq_append] at hr
    subst hr
    have heq' : log ++ [c] = (h ++ c' :: rest') ++ [x] := by simpa using heq
    obtain ⟨h1, _⟩ := List.append_inj' heq' rfl
    exact hlog h c' rest' h1

theorem allSucceeded_snoc_self (kc : KeyClient) (log : List Call)
    (hlog : AllSucceeded kc log) : AllSucceeded kc (log ++ [Call.Self]) :=
  allSucceeded_snoc kc log _ hlog (fun _ _ _ h => by cases h) (fun _ h => by cases h)

theorem allSucceeded_snoc_get (kc : KeyClient) (log : List Call) (p : String)
    (hlog : AllSucceeded kc log) : AllSucceeded kc (log ++ [Call.Get p]) :=
  allSucceeded_snoc kc log _ hlog (fun _ _ _ h => by cases h) (fun _ h => by cases h)

theorem getDC_allSucceeded (kc : KeyClient) (d : ResourceData) (client : Client)
    (meta : Config) (log : List Call) (hlog : AllSucceeded kc log) :
    AllSucceeded kc (getDC d client meta log).2 := by
  unfold getDC
  split
  · exact hlog
  · split
    · split
      · exact allSucceeded_snoc_self kc log hlog
      · split <;> exact allSucceeded_snoc_self kc log hlog
    · exact allSucceeded_snoc_self kc log hlog
    · exact allSucceeded_snoc_self kc log hlog

theorem readLoop_allSucceeded (kc₀ kc : KeyClient) (l : List Raw)
    (vars : List (String × String)) (log : List Call) (hlog : AllSucceeded kc₀ log) :
    AllSucceeded kc₀ (readLoop kc l vars log).2 := by
  induction l generalizing vars log with
  | nil => simpa [readLoop] using hlog
  | cons raw rest ih =>
    simp only [readLoop]
    split
    · exact hlog
    · rename_i key path sub hparse
      split
      · exact allSucceeded_snoc_get kc₀ log path hlog
      · have step := fun vars₁ => ih vars₁ _ (allSucceeded_snoc_get kc₀ log path hlog)
        split
        · rename_i heq
          have h := congrArg Prod.snd heq
          simp only [] at h
          rw [← h]
          exact step _
        · rename_i heq
          have h := congrArg Prod.snd heq
          simp only [] at h
          rw [← h]
          exact step _

theorem read_allSucceeded (kc₀ : KeyClient) (d : ResourceData) (meta : Config)
    (log : List Call) (hlog : AllSucceeded kc₀ log) :
    AllSucceeded kc₀ (resourceConsulKeysRead d meta log).2.2 := by
  unfold resourceConsulKeysRead
  simp only []
  have h1 := getDC_allSucceeded kc₀ d (getClient meta) meta log hlog
  rcases hdc : getDC d (getClient meta) meta log with ⟨err | dc, log₁⟩
  · rw [hdc] at h1
    exact h1
  · rw [hdc] at h1
    simp only []
    have h2 := readLoop_allSucceeded kc₀ (newKeyClient (getClient meta) dc d.token) d.key []
      log₁ h1
    rcases hl : readLoop (newKeyClient (getClient meta) dc d.token) d.key [] log₁
      with ⟨err | ⟨keys, vars⟩, log₂⟩
    · rw [hl] at h2
      exact h2
    · rw [hl] at h2
      exact h2

theorem addLoop_stopped (kc : KeyClient) (l : List Raw) (a : List String) (log : List Call)
    (hlog : AllSucceeded kc log) :
    AllSucceeded kc (addLoop kc l a log).2.2 ∨
      StoppedAtFailure kc (addLoop kc l a log).1 (addLoop kc l a log).2.2 := by
  induction l generalizing a log with
  | nil => exact Or.inl (by simpa [addLoop] using hlog)
  | cons raw rest ih =>
    simp only [addLoop]
    split
    · exact Or.inl hlog
    · rename_i key path sub hparse
      split
      · rename_i value hvalue
        split
        · exact ih a log hlog
        · split
          · rename_i flags hflags
            split
            · rename_i err herr
              exact Or.inr ⟨log, _, err, rfl, hlog, rfl, Or.inl ⟨_, _, _, rfl, herr⟩⟩
            · rename_i hnone
              apply ih
              apply allSucceeded_snoc kc log _ hlog
              · intro p v f h
                cases h
                exact hnone
              · intro p h
                cases h
          · exact Or.inl hlog
      · exact Or.inl hlog

theorem removeLoop_stopped (kc : KeyClient) (l : List Raw) (a : List String) (log : List Call)
    (hlog : AllSucceeded kc log) :
    AllSucceeded kc (removeLoop kc l a log).2 ∨
      StoppedAtFailure kc (removeLoop kc l a log).1 (removeLoop kc l a log).2 := by
  induction l generalizing log with
  | nil => exact Or.inl (by simpa [removeLoop] using hlog)
  | cons raw rest ih =>
    simp only [removeLoop]
    split
    · exact Or.inl hlog
    · rename_i key path sub hparse
      split
      · exact ih log hlog
      · split
        · split
          · rename_i err herr
            exact Or.inr ⟨log, _, err, rfl, hlog, rfl, Or.inr ⟨_, rfl, herr⟩⟩
          · rename_i hnone
            apply ih
            apply allSucceeded_snoc kc log _ hlog
            · intro p v f h
              cases h
            · intro p h
              cases h
              exact hnone
        · exact ih log hlog

theorem stoppedAtFailure_none (kc : KeyClient) (log : List Call)
    (h : StoppedAtFailure kc none log) : False := by
  obtain ⟨_, _, _, _, _, h, _⟩ := h
  cases h

theorem update_stopped {H : Type} [DecidableEq H] (hash : Raw → H)
    (d : ResourceData) (meta : Config) (dc : String) (log₁ : List Call)
    (hdc : getDC d (getClient meta) meta [] = (Except.ok dc, log₁)) :
    AllSucceeded (newKeyClient (getClient meta) dc d.token)
        (resourceConsulKeysUpdate hash d meta []).2.2 ∨
      StoppedAtFailure (newKeyClient (getClient meta) dc d.token)
        (resourceConsulKeysUpdate hash d meta []).1 (resourceConsulKeysUpdate hash d meta []).2.2 := by
  have h1 : AllSucceeded (newKeyClient (getClient meta) dc d.token) log₁ := by
    have := getDC_allSucceeded (newKeyClient (getClient meta) dc d.token) d (getClient meta)
      meta [] (allSucceeded_nil _)
    rw [hdc] at this
    exact this
  have hW := addLoop_stopped (newKeyClient (getClient meta) dc d.token)
    (Difference hash d.key d.oldKey) [] log₁ h1
  rcases update_cases hash d meta [] with ⟨err, log₀, hdc', hu⟩ | ⟨dc', log₁', hdc', hcase⟩
  · rw [hdc] at hdc'
    simp at hdc'
  · rw [hdc] at hdc'
    simp only [Prod.mk.injEq, Except.ok.injEq] at hdc'
    obtain ⟨e1, e2⟩ := hdc'
    subst e1 e2
    rcases hcase with ⟨hch, hu⟩ | ⟨hch, err, hw, hu⟩ | ⟨hch, hw, err, hdl, hu⟩ | ⟨hch, hw, hdl, hu⟩
    · rw [hu]
      exact Or.inl (read_allSucceeded _ _ _ _ h1)
    · rw [hu]
      simp only [writePhase] at hw ⊢
      rw [← hw]
      exact hW
    · have hW' : AllSucceeded (newKeyClient (getClient meta) dc d.token)
          (writePhase hash d meta dc log₁).2.2 := by
        rcases hW with h | h
        · exact h
        · simp only [writePhase] at hw
          rw [hw] at h
          exact (stoppedAtFailure_none _ _ h).elim
      have hD := removeLoop_stopped (newKeyClient (getClient meta) dc d.token)
        (Difference hash d.oldKey d.key) (writePhase hash d meta dc log₁).2.1 _ hW'
      rw [hu]
      simp only [deletePhase] at hdl ⊢
      rw [← hdl]
      exact hD
    · have hW' : AllSucceeded (newKeyClient (getClient meta) dc d.token)
          (writePhase hash d meta dc log₁).2.2 := by
        rcases hW with h | h
        · exact h
        · simp only [writePhase] at hw
          rw [hw] at h
          exact (stoppedAtFailure_none _ _ h).elim
      have hD := removeLoop_stopped (newKeyClient (getClient meta) dc d.token)
        (Difference hash d.oldKey d.key) (writePhase hash d meta dc log₁).2.1 _ hW'
      have hD' : AllSucceeded (newKeyClient (getClient meta) dc d.token)
          (deletePhase hash d meta dc log₁).2 := by
        rcases hD with h | h
        · exact h
        · simp only [deletePhase] at hdl
          rw [hdl] at h
          exact (stoppedAtFailure_none _ _ h).elim
      rw [hu]
      exact Or.inl (read_allSucceeded _ _ _ _ hD')

theorem getDC_congr (d : ResourceData) (client client' : Client) (meta meta' : Config)
    (log : List Call) (hD : meta'.Datacenter = meta.Datacenter) (hS : client'.Self = client.Self) :
    getDC d client' meta' log = getDC d client meta log := by
  unfold getDC
  rw [hD, hS]

theorem addLoop_sim (kc kc' : KeyClient) (hs : SucceedsWhere kc kc') (l : List Raw)
    (a : List String) (log : List Call) :
    addLoop kc l a log = addLoop kc' l a log ∨
      ((addLoop kc l a log).1 ≠ none ∧
        (addLoop kc l a log).2.2 <+: (addLoop kc' l a log).2.2) := by
  induction l generalizing a log with
  | nil => exact Or.inl rfl
  | cons raw rest ih =>
    simp only [addLoop]
    split
    · exact Or.inl rfl
    · rename_i key path sub hparse
      split
      · rename_i value hvalue
        split
        · exact ih a log
        · split
          · rename_i flags hflags
            rcases hput : kc.Put log path value flags with _ | err
            · rw [hs.1 _ _ _ _ hput]
              exact ih _ _
            · refine Or.inr ⟨by simp, ?_⟩
              rcases kc'.Put log path value flags with _ | err'
              · exact addLoop_extends kc' rest _ _
              · exact List.prefix_refl _
          · exact Or.inl rfl
      · exact Or.inl rfl

theorem removeLoop_sim (kc kc' : KeyClient) (hs : SucceedsWhere kc kc') (l : List Raw)
    (a : List String) (log : List Call) :
    removeLoop kc l a log = removeLoop kc' l a log ∨
      ((removeLoop kc l a log).1 ≠ none ∧
        (removeLoop kc l a log).2 <+: (removeLoop kc' l a log).2) := by
  induction l generalizing log with
  | nil => exact Or.inl rfl
  | cons raw rest ih =>
    simp only [removeLoop]
    split
    · exact Or.inl rfl
    · rename_i key path sub hparse
      split
      · exact ih log
      · split
        · rcases hdel : kc.Delete log path with _ | err
          · rw [hs.2.1 _ _ hdel]
            exact ih _
          · refine Or.inr ⟨by simp, ?_⟩
            rcases kc'.Delete log path with _ | err'
            · exact removeLoop_extends kc' rest _ _
            · exact List.prefix_refl _
        · exact ih log

theorem readLoop_sim (kc kc' : KeyClient) (hs : SucceedsWhere kc kc') (l : List Raw)
    (vars : List (String × String)) (log : List Call) :
    (readLoop kc l vars log).2 <+: (readLoop kc' l vars log).2 := by
  induction l generalizing vars log with
  | nil => exact List.prefix_refl _
  | cons raw rest ih =>
    simp only [readLoop]
    split
    · exact List.prefix_refl _
    · rename_i key path sub hparse
      rcases hget : kc.Get log path with err | ⟨value, flags⟩
      · simp only []
        rcases hget' : kc'.Get log path with err' | ⟨value', flags'⟩
        · exact List.prefix_refl _
        · simp only []
          have hp := fun vars₁ => readLoop_extends kc' rest vars₁ (log ++ [Call.Get path])
          split
          · rename_i heq
            have h := congrArg Prod.snd heq
            simp only [] at h
            simp only []
            rw [← h]
            exact hp _
          · rename_i heq
            have h := congrArg Prod.snd heq
            simp only [] at h
            simp only []
            rw [← h]
            exact hp _
      · rw [hs.2.2 _ _ _ hget]
        simp only []
        split
        · rename_i heq
          have h := congrArg Prod.snd heq
          simp only [] at h
          split
          · rename_i heq'
            have h' := congrArg Prod.snd heq'
            simp only [] at h'
            simp only []
            rw [← h, ← h']
            exact ih _ _
          · rename_i heq'
            have h' := congrArg Prod.snd heq'
            simp only [] at h'
            simp only []
            rw [← h, ← h']
            exact ih _ _
        · rename_i heq
          have h := congrArg Prod.snd heq
          simp only [] at h
          simp only []
          split
          · rename_i heq'
            have h' := congrArg Prod.snd heq'
            simp only [] at h'
            simp only []
            rw [← h, ← h']
            exact ih _ _
          · rename_i heq'
            have h' := congrArg Prod.snd heq'
            simp only [] at h'
            simp only []
            rw [← h, ← h']
            exact ih _ _

theorem read_sim (d : ResourceData) (meta meta' : Config) (log : List Call)
    (hD : meta'.Datacenter = meta.Datacenter)
    (hS : (getClient meta').Self = (getClient meta).Self)
    (hK : ∀ dc token, SucceedsWhere (newKeyClient (getClient meta) dc token)
      (newKeyClient (getClient meta') dc token)) :
    (resourceConsulKeysRead d meta log).2.2 <+: (resourceConsulKeysRead d meta' log).2.2 := by
  unfold resourceConsulKeysRead
  simp only []
  rw [getDC_congr d (getClient meta) (getClient meta') meta meta' log hD hS]
  rcases hdc : getDC d (getClient meta) meta log with ⟨err | dc, log₁⟩
  · exact List.prefix_refl _
  · simp only []
    have h := readLoop_sim _ _ (hK dc d.token) d.key [] log₁
    rcases hl : readLoop (newKeyClient (getClient meta) dc d.token) d.key [] log₁
      with ⟨err | ⟨keys, vars⟩, log₂⟩ <;>
    rcases hl' : readLoop (newKeyClient (getClient meta') dc d.token) d.key [] log₁
      with ⟨err' | ⟨keys', vars'⟩, log₂'⟩ <;>
    · rw [hl, hl'] at h
      exact h

theorem update_sim {H : Type} [DecidableEq H] (hash : Raw → H)
    (d : ResourceData) (meta meta' : Config)
    (hD : meta'.Datacenter = meta.Datacenter)
    (hS : (getClient meta').Self = (getClient meta).Self)
    (hK : ∀ dc token, SucceedsWhere (newKeyClient (getClient meta) dc token)
      (newKeyClient (getClient meta') dc token)) :
    (resourceConsulKeysUpdate hash d meta []).2.2 <+: (resourceConsulKeysUpdate hash d meta' []).2.2 := by
  unfold resourceConsulKeysUpdate
  simp only []
  rw [getDC_congr d (getClient meta) (getClient meta') meta meta' [] hD hS]
  rcases hdc : getDC d (getClient meta) meta [] with ⟨err | dc, log₁⟩
  · exact List.prefix_refl _
  · simp only []
    cases hch : HasChange d
    · simp only [Bool.false_eq_true, if_false]
      exact read_sim _ meta meta' log₁ hD hS hK
    · simp only [if_true, applyChange]
      have hA := addLoop_sim _ _ (hK dc d.token) (Difference hash d.key d.oldKey) [] log₁
      rcases hw : addLoop (newKeyClient (getClient meta) dc d.token)
        (Difference hash d.key d.oldKey) [] log₁ with ⟨_ | err, added, log₂⟩ <;>
      rcases hw' : addLoop (newKeyClient (getClient meta') dc d.token)
        (Difference hash d.key d.oldKey) [] log₁ with ⟨_ | err', added', log₂'⟩
      · rw [hw, hw'] at hA
        simp only [Prod.mk.injEq, true_and, ne_eq, not_true_eq_false, false_and, or_false] at hA
        obtain ⟨e1, e2⟩ := hA
        subst e1 e2
        simp only []
        have hR := removeLoop_sim _ _ (hK dc d.token) (Difference hash d.oldKey d.key) added log₂
        rcases hr : removeLoop (newKeyClient (getClient meta) dc d.token)
          (Difference hash d.oldKey d.key) added log₂ with ⟨_ | err, log₃⟩ <;>
        rcases hr' : removeLoop (newKeyClient (getClient meta') dc d.token)
          (Difference hash d.oldKey d.key) added log₂ with ⟨_ | err', log₃'⟩
        · rw [hr, hr'] at hR
          simp only [Prod.mk.injEq, true_and, ne_eq, not_true_eq_false, false_and,
            or_false] at hR
          subst hR
          exact read_sim _ meta meta' _ hD hS hK
        · rw [hr, hr'] at hR
          simp at hR
        · rw [hr, hr'] at hR
          simp only [Prod.mk.injEq, false_and, ne_eq, not_false_eq_true, true_and,
            false_or, reduceCtorEq] at hR
          exact hR.trans (read_extends _ meta' _)
        · rw [hr, hr'] at hR
          simp only [Prod.mk.injEq, ne_eq, not_false_eq_true, true_and, reduceCtorEq] at hR
          rcases hR with ⟨_, h⟩ | h
          · rw [h]
          · exact h
      · rw [hw, hw'] at hA
        simp at hA
      · rw [hw, hw'] at hA
        simp only [Prod.mk.injEq, false_and, ne_eq, not_false_eq_true, true_and, false_or,
          reduceCtorEq] at hA
        simp only []
        have hp := removeLoop_extends (newKeyClient (getClient meta') dc d.token)
          (Difference hash d.oldKey d.key) added' log₂'
        rcases hr' : removeLoop (newKeyClient (getClient meta') dc d.token)
          (Difference hash d.oldKey d.key) added' log₂' with ⟨_ | err', log₃'⟩
        · rw [hr'] at hp
          exact (hA.trans hp).trans (read_extends _ meta' _)
        · rw [hr'] at hp
          exact hA.trans hp
      · rw [hw, hw'] at hA
        simp only [Prod.mk.injEq, ne_eq, not_false_eq_true, true_and, reduceCtorEq] at hA
        rcases hA with ⟨_, _, h⟩ | h
        · rw [h]
        · exact h

theorem stopped_last (kc : KeyClient) (err : Option Err) (log h rest : List Call) (c : Call)
    (hrun : AllSucceeded kc log ∨ StoppedAtFailure kc err log) (hlog : log = h ++ c :: rest)
    (hfail : (∃ p v f e, c = Call.Put p v f ∧ kc.Put h p v f = some e) ∨
      (∃ p e, c = Call.Delete p ∧ kc.Delete h p = some e)) :
    rest = [] ∧ StoppedAtFailure kc err (h ++ [c]) := by
  have notAll : ∀ F rest', F = h ++ c :: rest' → AllSucceeded kc F → False := by
    intro F rest' hF hall
    obtain ⟨hput, hdel⟩ := hall h c rest' hF
    rcases hfail with ⟨p, v, f, e, hc, he⟩ | ⟨p, e, hc, he⟩
    · rw [hput p v f hc] at he
      cases he
    · rw [hdel p hc] at he
      cases he
  rcases hrun with hall | ⟨F, c', e, hF, hall, herr, hc'⟩
  · exact (notAll log rest hlog hall).elim
  · rcases List.eq_nil_or_concat rest with hr | ⟨rest', x, hr⟩
    · subst hr
      rw [hlog] at hF
      obtain ⟨h1, h2⟩ := List.append_inj' hF rfl
      simp only [List.cons.injEq, and_true] at h2
      subst h1 h2
      exact ⟨rfl, h, c, e, rfl, hall, herr, hc'⟩
    · rw [List.concat_eq_append] at hr
      subst hr
      rw [hlog] at hF
      have hF' : (h ++ c :: rest') ++ [x] = F ++ [c'] := by simpa using hF
      obtain ⟨h1, _⟩ := List.append_inj' hF' rfl
      exact (notAll F rest' h1.symm hall).elim

/-- C10: abort on a store failure, with no rollback. In resourceConsulKeysUpdate, when a
Put of the run is answered with an error, that Put is the last call of the run (no later
Put, no Delete, no read-back Get, and nothing that undoes the Puts before it, which stay
in the log) and the operation returns that error; the same holds for a Delete that is
answered with an error. And the calls of a run are a prefix of the calls of the same run
against a store that succeeds wherever this one does, so in particular of the run in which
the failing call succeeded. -/
theorem C10_abort_on_store_failure {H : Type} [DecidableEq H] (hash : Raw → H) :
    (∀ d meta dc log₁ h p v f rest e,
      getDC d (getClient meta) meta [] = (Except.ok dc, log₁) →
      (resourceConsulKeysUpdate hash d meta []).2.2 = h ++ Call.Put p v f :: rest →
      (newKeyClient (getClient meta) dc d.token).Put h p v f = some e →
      rest = [] ∧ (resourceConsulKeysUpdate hash d meta []).1 = some (Err.error e)) ∧
    (∀ d meta dc log₁ h p rest e,
      getDC d (getClient meta) meta [] = (Except.ok dc, log₁) →
      (resourceConsulKeysUpdate hash d meta []).2.2 = h ++ Call.Delete p :: rest →
      (newKeyClient (getClient meta) dc d.token).Delete h p = some e →
      rest = [] ∧ (resourceConsulKeysUpdate hash d meta []).1 = some (Err.error e)) ∧
    (∀ d meta meta', meta'.Datacenter = meta.Datacenter →
      (getClient meta').Self = (getClient meta).Self →
      (∀ dc token, SucceedsWhere (newKeyClient (getClient meta) dc token)
        (newKeyClient (getClient meta') dc token)) →
      (resourceConsulKeysUpdate hash d meta []).2.2 <+: (resourceConsulKeysUpdate hash d meta' []).2.2) := by
  refine ⟨?_, ?_, update_sim hash⟩
  · intro d meta dc log₁ h p v f rest e hdc hlog hfail
    obtain ⟨hrest, F, c, e', hF, _, herr, hc⟩ :=
      stopped_last _ _ _ h rest _ (update_stopped hash d meta dc log₁ hdc) hlog
        (Or.inl ⟨p, v, f, e, rfl, hfail⟩)
    refine ⟨hrest, ?_⟩
    obtain ⟨h1, h2⟩ := List.append_inj' hF rfl
    simp only [List.cons.injEq, and_true] at h2
    subst h1 h2
    rcases hc with ⟨p', v', f', hc, he⟩ | ⟨p', hc, _⟩
    · cases hc
      rw [hfail] at he
      cases he
      exact herr
    · cases hc
  · intro d meta dc log₁ h p rest e hdc hlog hfail
    obtain ⟨hrest, F, c, e', hF, _, herr, hc⟩ :=
      stopped_last _ _ _ h rest _ (update_stopped hash d meta dc log₁ hdc) hlog
        (Or.inr ⟨p, e, rfl, hfail⟩)
    refine ⟨hrest, ?_⟩
    obtain ⟨h1, h2⟩ := List.append_inj' hF rfl
    simp only [List.cons.injEq, and_true] at h2
    subst h1 h2
    rcases hc with ⟨p', v', f', hc, _⟩ | ⟨p', hc, he⟩
    · cases hc
    · cases hc
      rw [hfail] at he
      cases he
      exact herr

theorem C10_abort_on_store_failure_witness :
    (([] : List Call) = [] ∧
      (resourceConsulKeysUpdate wholeRecord (resource [entry "c" "3" true]
        [entry "a" "1" false, entry "b" "2" false, entry "d" "4" false])
        (failingConfig [] "b" "") []).1 = some (Err.error "boom")) ∧
    (([] : List Call) = [] ∧
      (resourceConsulKeysUpdate wholeRecord (resource [entry "c" "3" true, entry "e" "5" true]
        [entry "a" "1" false]) (failingConfig [] "" "c") []).1 = some (Err.error "boom")) ∧
    (resourceConsulKeysUpdate wholeRecord (resource [entry "c" "3" true]
      [entry "a" "1" false, entry "b" "2" false, entry "d" "4" false])
      (failingConfig [] "b" "") []).2.2 <+:
    (resourceConsulKeysUpdate wholeRecord (resource [entry "c" "3" true]
      [entry "a" "1" false, entry "b" "2" false, entry "d" "4" false])
      (memConfig []) []).2.2 :=
  ⟨(C10_abort_on_store_failure wholeRecord).1 (resource [entry "c" "3" true]
      [entry "a" "1" false, entry "b" "2" false, entry "d" "4" false])
      (failingConfig [] "b" "") "dc1" [] [Call.Put "a" "1" 0] "b" "2" 0 [] "boom" rfl
      (by decide) rfl,
   (C10_abort_on_store_failure wholeRecord).2.1 (resource [entry "c" "3" true, entry "e" "5" true]
      [entry "a" "1" false]) (failingConfig [] "" "c") "dc1" [] [Call.Put "a" "1" 0] "c" []
      "boom" rfl (by decide) rfl,
   (C10_abort_on_store_failure wholeRecord).2.2 (resource [entry "c" "3" true]
      [entry "a" "1" false, entry "b" "2" false, entry "d" "4" false])
      (failingConfig [] "b" "") (memConfig []) rfl rfl
      (fun _ _ => ⟨fun _ _ _ _ _ => rfl, fun _ _ _ => rfl, fun _ _ _ h => h⟩)⟩

end Consul
